import Mathlib

/-!
Verification development for the `leaflet-wms-crop` plugin
(`leaflet-wms-crop.js`).  The file shallowly embeds the plugin's
boundary-normalization and geometric-clipping core:

* the geometry kernel (`projectToTilePixels`, `pointInPolygon`,
  `_tileCoordsToBounds`, `_getBoundaryBounds`, `_tileIntersectsBoundary`),
* the boundary normalizer (`normalizeBoundary`) together with both layer
  factories,
* the canvas clipping pipeline used by `_applyClip` and
  `_applyClipToImage`,
* a small reference-heap model for the aliasing behaviour of
  `getBoundary`, and
* an action-trace model of the per-tile / per-overlay fetch callbacks.

Pixel-space functions are stated over a general linear ordered field so
they can be evaluated at `ℚ` and reused at `ℝ`; the Web-Mercator tile
math from the source is transcendental and is embedded over `ℝ`.
JavaScript numbers are IEEE doubles; following the spec's own reading
("exact to floating-point precision", "within floating-point tolerance")
the arithmetic is modelled exactly.
-/

namespace WmsCrop

/-- A 2-D point, as the `{x: ..., y: ...}` records used by the plugin. -/
structure Pt (α : Type) where
  x : α
  y : α
  deriving DecidableEq

section EdgeLists

variable {β : Type}

/-- The list of predecessors of each element of `l` in cyclic order:
for `l = [p₀, …, pₙ₋₁]` this is `[pₙ₋₁, p₀, …, pₙ₋₂]`.  It mirrors the
index `j` of the source's ray-casting loop (`j = i-1`, starting at
`polygon.length - 1`). -/
def prevList : List β → List β
  | [] => []
  | a :: as => as.getLastD a :: (a :: as).dropLast

/-- Consecutive (path) pairs `(pᵢ₋₁, pᵢ)` of a list. -/
def consecEdges (l : List β) : List (β × β) := l.dropLast.zip l.tail

/-- The cyclic edge list `[(pₙ₋₁,p₀), (p₀,p₁), …, (pₙ₋₂,pₙ₋₁)]`:
exactly the `(polygon[j], polygon[i])` pairs visited by the source's
loop `for (i = 0, j = n-1; i < n; j = i++)`. -/
def cyclicEdges (l : List β) : List (β × β) := (prevList l).zip l

end EdgeLists

section PixelGeometry

variable {α : Type} [LinearOrderedField α]

/-- The x-coordinate at height `y` of the line through `pj` and `pi`:
the sub-expression `(xj - xi) * (y - yi) / (yj - yi) + xi` of the
source's `pointInPolygon`. -/
def crossXf (pj pi : Pt α) (y : α) : α :=
  (pj.x - pi.x) * (y - pi.y) / (pj.y - pi.y) + pi.x

/-- The straddle test `(yi > y) !== (yj > y)` for an edge `(pj, pi)`. -/
def straddleB (q : Pt α) (e : Pt α × Pt α) : Bool :=
  decide (e.2.y > q.y) != decide (e.1.y > q.y)

/-- The source's per-edge test
`((yi > y) !== (yj > y)) && (x < (xj - xi) * (y - yi) / (yj - yi) + xi)`. -/
def edgeCrossing (q : Pt α) (e : Pt α × Pt α) : Bool :=
  straddleB q e && decide (q.x < crossXf e.1 e.2 q.y)

/-- Ray-casting point-in-polygon test, embedding the source's
`pointInPolygon(point, polygon)`: fold over the cyclic edges, flipping
`inside` on every crossing edge, starting from `false`. -/
def pointInPolygon (q : Pt α) (l : List (Pt α)) : Bool :=
  (cyclicEdges l).foldl (fun inside e => if edgeCrossing q e then !inside else inside) false

/-- Cross product `(v - u) × (p - u)`; positive iff `p` lies strictly to
the left of the directed line `u → v`. -/
def crossProd (u v p : Pt α) : α :=
  (v.x - u.x) * (p.y - u.y) - (v.y - u.y) * (p.x - u.x)

/-- Vertex centroid (coordinate average) of a polygon's vertex list. -/
def centroid (l : List (Pt α)) : Pt α :=
  ⟨(l.map Pt.x).sum / l.length, (l.map Pt.y).sum / l.length⟩

/-- A strictly convex polygon: at least three pairwise-distinct
vertices, and every vertex off an edge lies strictly on one fixed side
(left for counter-clockwise rings, right for clockwise ones) of every
directed edge. -/
def IsConvexRing (l : List (Pt α)) : Prop :=
  l.Nodup ∧ 3 ≤ l.length ∧
    ((∀ e ∈ cyclicEdges l, ∀ p ∈ l, p ≠ e.1 → p ≠ e.2 → 0 < crossProd e.1 e.2 p) ∨
     (∀ e ∈ cyclicEdges l, ∀ p ∈ l, p ≠ e.1 → p ≠ e.2 → crossProd e.1 e.2 p < 0))

end PixelGeometry

section Canvas

variable {α : Type} [LinearOrderedField α] {β : Type}

/-- State of a 2-D canvas context as observable through the operations
the plugin uses: the current clip region and, per point, whether the
canvas holds an opaque (alpha > 0) pixel there.  A fresh canvas is fully
transparent and unclipped. -/
structure Ctx2D (β : Type) where
  clipReg : β → Bool
  pixels : β → Bool

/-- A freshly created canvas context. -/
def ctxNew : Ctx2D β := ⟨fun _ => true, fun _ => false⟩

/-- `ctx.clip()` after building a path: intersect the clip region with
the path's interior. -/
def ctxClip (path : β → Bool) (c : Ctx2D β) : Ctx2D β :=
  ⟨fun p => c.clipReg p && path p, c.pixels⟩

/-- `ctx.fillStyle = 'rgba(0, 0, 0, 0)'; ctx.fill()`: source-over
compositing of a fully transparent color changes no pixel, so the
observable state is unchanged. -/
def ctxFillTransparent (c : Ctx2D β) : Ctx2D β := c

/-- `ctx.drawImage(img, 0, 0, w, h)` covering the whole canvas:
a pixel becomes opaque where it already was, or where the clip region
admits an opaque image pixel. -/
def ctxDrawImage (img : β → Bool) (c : Ctx2D β) : Ctx2D β :=
  ⟨c.clipReg, fun p => c.pixels p || (c.clipReg p && img p)⟩

/-- Interior of the path built by `moveTo`/`lineTo`/`closePath` over a
ring, under the ray-casting parity rule (for the simple rings at issue
this agrees with the canvas nonzero winding rule). -/
def pathOfRing (ring : List (Pt α)) : Pt α → Bool :=
  fun p => pointInPolygon p ring

/-- The identical canvas-operation sequence appearing in both
`_applyClip` and `_applyClipToImage`: build the boundary path, then
either (`invertClip` true) `clip(); fill()` with a transparent fill
style, or (`invertClip` false) `clip()`, and finally draw the fetched
image through the clip. -/
def clipDrawOps (invert : Bool) (ringPixels : List (Pt α)) (img : Pt α → Bool) :
    Ctx2D (Pt α) :=
  let clipped := ctxClip (pathOfRing ringPixels) ctxNew
  let afterFill := if invert then ctxFillTransparent clipped else clipped
  ctxDrawImage img afterFill

/-- `_applyClipToImage(img, bounds, size)` of the viewport renderer:
project the boundary ring to container pixels through the host map's
`latLngToContainerPoint` (the abstract `proj`), then run the clip-draw
sequence. -/
def applyClipToImage (invert : Bool) (boundary : List (α × α))
    (proj : α × α → Pt α) (img : Pt α → Bool) : Ctx2D (Pt α) :=
  clipDrawOps invert (boundary.map proj) img

end Canvas

section Normalizer

/-- An `L.LatLngBounds` instance as consumed by `normalizeBoundary`:
`getSouthWest()` returns `(south, west)` and `getNorthEast()` returns
`(north, east)`. -/
structure RectBounds where
  south : ℚ
  west : ℚ
  north : ℚ
  east : ℚ
  deriving DecidableEq

/-- The boundary shapes distinguished by `normalizeBoundary`'s runtime
checks, as a tagged union.  Coordinate pairs are `(lat, lng)` except in
the GeoJSON cases, which carry `(lng, lat)` as in the source.
`unrecognized` stands for any input matching none of the checks. -/
inductive BoundaryIn where
  | arr (l : List (ℚ × ℚ))
  | bounds (b : RectBounds)
  | polygon (rings : List (List (ℚ × ℚ)))
  | geoPolygon (coords : List (List (ℚ × ℚ)))
  | geoMultiPolygon (coords : List (List (List (ℚ × ℚ))))
  | feature (geometry : BoundaryIn)
  | unrecognized

/-- The error message thrown by `normalizeBoundary` for unsupported
inputs. -/
def unsupportedBoundaryMsg : String :=
  "Unsupported boundary format. Use L.LatLngBounds, L.Polygon, GeoJSON, or Array of [lat, lng] pairs."

/-- `normalizeBoundary(boundary)`: convert any supported boundary
representation into a ring of `[lat, lng]` pairs, or throw.  Note the
array case returns the input unchanged, the bounds case builds the
5-point rectangle with the source's actual corner expressions, the
polygon case takes `getLatLngs()[0]`, and the GeoJSON cases take the
first ring (of the first polygon) with the `[lng, lat] → [lat, lng]`
swap.  (A polygon/GeoJSON object with an empty ring list would crash in
JS before producing a ring; the model returns the empty ring there.) -/
def normalizeBoundary : BoundaryIn → Except String (List (ℚ × ℚ))
  | .arr l => if 0 < l.length then .ok l else .error unsupportedBoundaryMsg
  | .bounds b =>
      .ok [(b.south, b.west), (b.north, b.west), (b.north, b.east),
           (b.south, b.east), (b.south, b.west)]
  | .polygon rings => .ok (rings.headD [])
  | .geoPolygon coords => .ok ((coords.headD []).map fun c => (c.2, c.1))
  | .geoMultiPolygon coords =>
      .ok (((coords.headD []).headD []).map fun c => (c.2, c.1))
  | .feature g => normalizeBoundary g
  | .unrecognized => .error unsupportedBoundaryMsg

/-- Whether an input matches one of `normalizeBoundary`'s recognized
shapes (an empty array matches none of the runtime checks and falls
through to the throw). -/
def recognizedBoundary : BoundaryIn → Bool
  | .arr l => decide (0 < l.length)
  | .bounds _ => true
  | .polygon _ => true
  | .geoPolygon _ => true
  | .geoMultiPolygon _ => true
  | .feature g => recognizedBoundary g
  | .unrecognized => false

/-- The spec's boundary-ring data invariant: first and last coordinate
pairs equal, and at least three pairwise-distinct vertices. -/
def RingInvariant (l : List (ℚ × ℚ)) : Prop :=
  l.head? = l.getLast? ∧
    ∃ a ∈ l, ∃ b ∈ l, ∃ c ∈ l, a ≠ b ∧ a ≠ c ∧ b ≠ c

/-- The option keys read by both initializers. -/
structure WmsOptions where
  clipMode : Option String
  invertClip : Option Bool

/-- Layer state produced by `L.TileLayer.WMS.Clipped.initialize` once
construction succeeds. -/
structure TileLayerState where
  boundary : List (ℚ × ℚ)
  clipMode : String
  invertClip : Bool
  deriving DecidableEq

/-- `L.tileLayer.wms.clipped(baseUrl, options, boundary)`: construction
normalizes the boundary first; a normalization error propagates and no
layer state is produced. -/
def tileLayerClippedFactory (opts : WmsOptions) (b : BoundaryIn) :
    Except String TileLayerState :=
  (normalizeBoundary b).map fun ring =>
    ⟨ring, opts.clipMode.getD "canvas", opts.invertClip.getD false⟩

/-- Overlay state produced by `L.ImageOverlay.WMS.Clipped.initialize`. -/
structure OverlayState where
  boundary : List (ℚ × ℚ)
  clipMode : String
  invertClip : Bool
  deriving DecidableEq

/-- `L.imageOverlay.wms.clipped(baseUrl, options, boundary)`: same
normalize-first construction for the viewport strategy. -/
def imageOverlayClippedFactory (opts : WmsOptions) (b : BoundaryIn) :
    Except String OverlayState :=
  (normalizeBoundary b).map fun ring =>
    ⟨ring, opts.clipMode.getD "canvas", opts.invertClip.getD false⟩

end Normalizer

section RefHeap

/-- JavaScript array objects are passed by reference; model references
as indices into a heap of rings. -/
abbrev HeapRef := ℕ

/-- A heap assigning each array reference its current contents. -/
abbrev ArrayHeap := HeapRef → List (ℚ × ℚ)

/-- Mutate the array behind a reference. -/
def heapWrite (h : ArrayHeap) (r : HeapRef) (v : List (ℚ × ℚ)) : ArrayHeap :=
  fun s => if s = r then v else h s

/-- Boundary input at the reference level: either an existing array of
`[lat, lng]` pairs (passed by reference) or a bounds object. -/
inductive BoundaryRefIn where
  | arrRef (r : HeapRef)
  | boundsIn (b : RectBounds)

/-- `normalizeBoundary` at the reference level: the array case returns
the caller's array object itself (`return boundary;`), while the bounds
case allocates a fresh rectangle ring at `fresh`. -/
def normalizeBoundaryRef (h : ArrayHeap) (fresh : HeapRef) :
    BoundaryRefIn → ArrayHeap × HeapRef
  | .arrRef r => (h, r)
  | .boundsIn b =>
      (heapWrite h fresh
        [(b.south, b.west), (b.north, b.west), (b.north, b.east),
         (b.south, b.east), (b.south, b.west)], fresh)

/-- The slice of layer state relevant to aliasing: `this._boundary`
holds a reference. -/
structure TileLayerRefState where
  boundaryRef : HeapRef

/-- Construction at the reference level: store whatever reference
`normalizeBoundary` returned. -/
def layerConstructRef (h : ArrayHeap) (fresh : HeapRef) (b : BoundaryRefIn) :
    ArrayHeap × TileLayerRefState :=
  let hr := normalizeBoundaryRef h fresh b
  (hr.1, ⟨hr.2⟩)

/-- `getBoundary()` returns `this._boundary` itself, without copying. -/
def getBoundaryRefFn (s : TileLayerRefState) : HeapRef := s.boundaryRef

/-- The ring a subsequent render or `getBoundary` call observes. -/
def readBoundary (h : ArrayHeap) (s : TileLayerRefState) : List (ℚ × ℚ) :=
  h s.boundaryRef

end RefHeap

section Traces

/-- A call of the host framework's per-tile `done` callback. -/
inductive DoneCall where
  | ok
  | error (msg : String)
  deriving DecidableEq

/-- Outcome of the underlying tile-image fetch, as observed by the
callback `createTile` passes to the parent WMS layer: the parent
callback may deliver an error; otherwise the image element either is
already complete, fires `onload`, or fires `onerror`. -/
inductive TileFetchOutcome where
  | callbackError (msg : String)
  | loadedComplete
  | loadedLater
  | loadFailed

/-- Outcome of the viewport image fetch in `_update`. -/
inductive OverlayFetchOutcome where
  | loaded
  | failed

/-- Externally visible actions of the tile/overlay pipelines. -/
inductive LayerAction where
  | issueFetch
  | drawClippedTile
  | callDone (d : DoneCall)
  | logWmsError
  | publishOverlay
  | redraw
  deriving DecidableEq

/-- The callback body `createTile` installs, as a function of the fetch
outcome: it never touches the layer state and emits the actions of the
corresponding branch (`done(err)`; `_applyClip` then `done(null,
canvas)`; or `done(new Error('Failed to load tile'))`). -/
def createTileCallback (s : TileLayerState) :
    TileFetchOutcome → TileLayerState × List LayerAction
  | .callbackError e => (s, [.callDone (.error e)])
  | .loadedComplete => (s, [.drawClippedTile, .callDone .ok])
  | .loadedLater => (s, [.drawClippedTile, .callDone .ok])
  | .loadFailed => (s, [.callDone (.error "Failed to load tile")])

/-- A whole `createTile` request: one fetch is issued, then the callback
runs on the outcome. -/
def createTileTrace (s : TileLayerState) (o : TileFetchOutcome) :
    TileLayerState × List LayerAction :=
  let so := createTileCallback s o
  (so.1, .issueFetch :: so.2)

/-- The `onload`/`onerror` handlers of the overlay's `_update`: on load,
mask and publish image and bounds; on error, report it
(`console.error`) and stop — no throw, no retry. -/
def overlayUpdateHandler (s : OverlayState) :
    OverlayFetchOutcome → OverlayState × List LayerAction
  | .loaded => (s, [.publishOverlay])
  | .failed => (s, [.logWmsError])

/-- A whole `_update` pass: one viewport fetch plus its handler. -/
def overlayUpdateTrace (s : OverlayState) (o : OverlayFetchOutcome) :
    OverlayState × List LayerAction :=
  let so := overlayUpdateHandler s o
  (so.1, .issueFetch :: so.2)

/-- `setBoundary(boundary)` on the tile layer: replace the ring and
request a redraw; a normalization error propagates. -/
def setBoundaryTile (s : TileLayerState) (b : BoundaryIn) :
    Except String (TileLayerState × List LayerAction) :=
  (normalizeBoundary b).map fun ring => ({ s with boundary := ring }, [.redraw])

end Traces

section RealGeometry

/-- A geographic coordinate as an `L.LatLng`. -/
structure LatLng where
  lat : ℝ
  lng : ℝ

/-- An `L.LatLngBounds` over real coordinates. -/
structure LatLngBounds where
  south : ℝ
  west : ℝ
  north : ℝ
  east : ℝ

/-- Corner accessors of `L.LatLngBounds`. -/
def LatLngBounds.getSouthWest (b : LatLngBounds) : LatLng := ⟨b.south, b.west⟩

/-- See `LatLngBounds.getSouthWest`. -/
def LatLngBounds.getNorthEast (b : LatLngBounds) : LatLng := ⟨b.north, b.east⟩

/-- See `LatLngBounds.getSouthWest`. -/
def LatLngBounds.getSouthEast (b : LatLngBounds) : LatLng := ⟨b.south, b.east⟩

/-- See `LatLngBounds.getSouthWest`. -/
def LatLngBounds.getNorthWest (b : LatLngBounds) : LatLng := ⟨b.north, b.west⟩

/-- The `L.latLngBounds(corner1, corner2)` constructor, which normalizes
the two corners componentwise (Leaflet `extend`ing an empty bounds). -/
noncomputable def mkLatLngBounds (c1 c2 : LatLng) : LatLngBounds :=
  ⟨min c1.lat c2.lat, min c1.lng c2.lng, max c1.lat c2.lat, max c1.lng c2.lng⟩

/-- Leaflet's `LatLngBounds.contains(latlng)`: inclusive comparisons on
both axes. -/
noncomputable def LatLngBounds.containsLL (b : LatLngBounds) (p : LatLng) : Bool :=
  decide (b.south ≤ p.lat) && decide (p.lat ≤ b.north) &&
    decide (b.west ≤ p.lng) && decide (p.lng ≤ b.east)

/-- Leaflet's `LatLngBounds.intersects(other)`: inclusive axis-aligned
interval overlap on both axes. -/
noncomputable def LatLngBounds.intersectsB (b other : LatLngBounds) : Bool :=
  (decide (other.south ≤ b.north) && decide (other.north ≥ b.south)) &&
    (decide (other.west ≤ b.east) && decide (other.east ≥ b.west))

/-- A tile address `(column, row, zoom)` in the quad-tree scheme. -/
structure TileCoords where
  x : ℕ
  y : ℕ
  z : ℕ

/-- The tile-size constant (`tileSize.x`, `tileSize.y`). -/
structure TileSize where
  x : ℝ
  y : ℝ

/-- `lonMin = (coords.x / n) * 360 - 180` with `n = 2^zoom`; this and
the next three definitions are the tile-bounds expressions computed
identically inside `projectToTilePixels` and `_tileCoordsToBounds`. -/
noncomputable def tileLonMin (c : TileCoords) : ℝ :=
  ((c.x : ℝ) / 2 ^ c.z) * 360 - 180

/-- `lonMax = ((coords.x + 1) / n) * 360 - 180`. -/
noncomputable def tileLonMax (c : TileCoords) : ℝ :=
  (((c.x : ℝ) + 1) / 2 ^ c.z) * 360 - 180

/-- `latMin = atan(sinh(π * (1 - 2 * (coords.y + 1) / n))) * 180 / π`. -/
noncomputable def tileLatMin (c : TileCoords) : ℝ :=
  Real.arctan (Real.sinh (Real.pi * (1 - 2 * ((c.y : ℝ) + 1) / 2 ^ c.z))) * 180 / Real.pi

/-- `latMax = atan(sinh(π * (1 - 2 * coords.y / n))) * 180 / π`. -/
noncomputable def tileLatMax (c : TileCoords) : ℝ :=
  Real.arctan (Real.sinh (Real.pi * (1 - 2 * (c.y : ℝ) / 2 ^ c.z))) * 180 / Real.pi

/-- `projectToTilePixels(latlng, tileCoords, tileSize, map)`: linear
interpolation of the geographic point within the tile's bounds onto
tile-local pixels, y-axis inverted. -/
noncomputable def projectToTilePixels (latlng : LatLng) (c : TileCoords)
    (ts : TileSize) : Pt ℝ :=
  ⟨(latlng.lng - tileLonMin c) / (tileLonMax c - tileLonMin c) * ts.x,
   (tileLatMax c - latlng.lat) / (tileLatMax c - tileLatMin c) * ts.y⟩

/-- `_tileCoordsToBounds(coords)`. -/
noncomputable def tileCoordsToBounds (c : TileCoords) : LatLngBounds :=
  mkLatLngBounds ⟨tileLatMin c, tileLonMin c⟩ ⟨tileLatMax c, tileLonMax c⟩

/-- The four tile corners tested by `_tileIntersectsBoundary`, in source
order: SW, NE, SE, NW. -/
noncomputable def tileCornersList (c : TileCoords) : List LatLng :=
  [(tileCoordsToBounds c).getSouthWest, (tileCoordsToBounds c).getNorthEast,
   (tileCoordsToBounds c).getSouthEast, (tileCoordsToBounds c).getNorthWest]

/-- `_pointInBoundary(latlng)`: ray casting over the stored `[lat, lng]`
ring with `x := lng`, `y := lat`. -/
noncomputable def pointInBoundary (boundary : List (ℝ × ℝ)) (ll : LatLng) : Bool :=
  pointInPolygon ⟨ll.lng, ll.lat⟩ (boundary.map fun p => ⟨p.2, p.1⟩)

/-- Minimum latitude over a ring's vertices (the `Math.min` fold of
`_getBoundaryBounds`, which for a nonempty ring equals folding from the
first vertex). -/
noncomputable def ringMinLat : List (ℝ × ℝ) → ℝ
  | [] => 0
  | p :: ps => ps.foldl (fun m q => min m q.1) p.1

/-- Maximum latitude over a ring's vertices. -/
noncomputable def ringMaxLat : List (ℝ × ℝ) → ℝ
  | [] => 0
  | p :: ps => ps.foldl (fun m q => max m q.1) p.1

/-- Minimum longitude over a ring's vertices. -/
noncomputable def ringMinLng : List (ℝ × ℝ) → ℝ
  | [] => 0
  | p :: ps => ps.foldl (fun m q => min m q.2) p.2

/-- Maximum longitude over a ring's vertices. -/
noncomputable def ringMaxLng : List (ℝ × ℝ) → ℝ
  | [] => 0
  | p :: ps => ps.foldl (fun m q => max m q.2) p.2

/-- `_getBoundaryBounds()`: the ring's axis-aligned bounds. -/
noncomputable def getBoundaryBounds (boundary : List (ℝ × ℝ)) : LatLngBounds :=
  mkLatLngBounds ⟨ringMinLat boundary, ringMinLng boundary⟩
    ⟨ringMaxLat boundary, ringMaxLng boundary⟩

/-- `_tileIntersectsBoundary(coords)`: any tile corner inside the ring,
else any ring vertex inside the tile bounds, else axis-aligned overlap
of the two bounds — with the source's early returns as an if-chain. -/
noncomputable def tileIntersectsBoundary (boundary : List (ℝ × ℝ))
    (c : TileCoords) : Bool :=
  if (tileCornersList c).any (fun ll => pointInBoundary boundary ll) then true
  else if boundary.any (fun p => (tileCoordsToBounds c).containsLL ⟨p.1, p.2⟩) then true
  else (tileCoordsToBounds c).intersectsB (getBoundaryBounds boundary)

/-- `_applyClip(canvas, ctx, tileImg, coords, done)`: project the ring
into tile-pixel space; if the mode is non-inverted and the tile misses
the boundary, return the untouched transparent canvas; otherwise run
the clip-draw sequence. -/
noncomputable def applyClip (invert : Bool) (boundary : List (ℝ × ℝ))
    (c : TileCoords) (ts : TileSize) (img : Pt ℝ → Bool) : Ctx2D (Pt ℝ) :=
  let boundaryPixels := boundary.map fun ll => projectToTilePixels ⟨ll.1, ll.2⟩ c ts
  if !invert && !tileIntersectsBoundary boundary c then ctxNew
  else clipDrawOps invert boundaryPixels img

end RealGeometry

section Fixtures

/-- The spec's example rectangle ring `[[10,10],[10,20],[20,20],[20,10],[10,10]]`
as `(lat, lng)` pairs. -/
def rectRingQ : List (ℚ × ℚ) := [(10, 10), (10, 20), (20, 20), (20, 10), (10, 10)]

/-- A concrete host-map `latLngToContainerPoint`: the identity chart
sending `(lat, lng)` to the container pixel `(x, y) = (lng, lat)`. -/
def projSwap (p : ℚ × ℚ) : Pt ℚ := ⟨p.2, p.1⟩

/-- A fully opaque fetched image. -/
def fullImg : Pt ℚ → Bool := fun _ => true

/-- Heap after allocating the spec's rectangle ring at reference 0. -/
def c4Heap0 : ArrayHeap := heapWrite (fun _ => []) 0 rectRingQ

/-- Layer constructed from that array, passed by reference. -/
def c4Constructed : ArrayHeap × TileLayerRefState :=
  layerConstructRef c4Heap0 1 (.arrRef 0)

/-- Heap after the caller mutates the array returned by `getBoundary`. -/
def c4Mutated : ArrayHeap :=
  heapWrite c4Constructed.1 (getBoundaryRefFn c4Constructed.2)
    [(0, 0), (1, 1), (2, 0), (0, 0)]

end Fixtures

/-! ## Theorems -/

/-- C10: `pointInPolygon` is total: an empty vertex list yields `false`,
and the edge-slope division `(y - yi) / (yj - yi)` is guarded by the
straddle condition `(yi > y) !== (yj > y)`, which forces `yj - yi ≠ 0`,
so the division is never by zero (including for horizontal edges and
repeated vertices, whose edges simply fail the straddle test). -/
theorem pointInPolygon_total_guard :
    (∀ q : Pt ℚ, pointInPolygon q [] = false) ∧
    (∀ (q : Pt ℚ) (e : Pt ℚ × Pt ℚ), straddleB q e = true → e.1.y - e.2.y ≠ 0) := by
  constructor
  · intro q; rfl
  · intro q e h heq
    have hy : e.1.y = e.2.y := by linarith [sub_eq_zero.mp heq]
    rw [straddleB, hy] at h
    simp at h

/-- Witness for C10 at concrete inputs. -/
theorem pointInPolygon_total_guard_witness :
    pointInPolygon (⟨1, 1⟩ : Pt ℚ) [] = false ∧
    straddleB (⟨0, 0⟩ : Pt ℚ) (⟨0, 1⟩, ⟨0, -1⟩) = true ∧
    ((⟨0, 1⟩ : Pt ℚ), (⟨0, -1⟩ : Pt ℚ)).1.y - ((⟨0, 1⟩ : Pt ℚ), (⟨0, -1⟩ : Pt ℚ)).2.y ≠ 0 :=
  ⟨pointInPolygon_total_guard.1 _, by decide,
    pointInPolygon_total_guard.2 ⟨0, 0⟩ (⟨0, 1⟩, ⟨0, -1⟩) (by decide)⟩

/-- C5 counterexample: for the bounds with SW `(0,0)` and NE `(1,1)`,
the produced ring is not the claimed SW, SE, NE, NW, SW order; the
source's corner expressions actually yield SW, NW, NE, SE, SW (the
in-code `// SE` and `// NW` comments mislabel the corners). -/
theorem normalizeBoundary_bounds_order_counterexample :
    normalizeBoundary (.bounds ⟨0, 0, 1, 1⟩) ≠
      Except.ok [(0, 0), (0, 1), (1, 1), (1, 0), (0, 0)] ∧
    normalizeBoundary (.bounds ⟨0, 0, 1, 1⟩) =
      Except.ok [(0, 0), (1, 0), (1, 1), (0, 1), (0, 0)] := by
  constructor
  · intro h
    rw [normalizeBoundary] at h
    simp at h
  · rfl

/-- C5 amended: for every rectangular bounds input with southwest corner
`(s,w)` and northeast corner `(n,e)`, `normalizeBoundary` returns the
5-point closed rectangle ring `[[s,w],[n,w],[n,e],[s,e],[s,w]]`, i.e.
the corners in the order SW, NW, NE, SE, SW. -/
theorem normalizeBoundary_bounds_ring (s w n e : ℚ) :
    normalizeBoundary (.bounds ⟨s, w, n, e⟩) =
      Except.ok [(s, w), (n, w), (n, e), (s, e), (s, w)] := rfl

/-- C6 counterexample: the unclosed 2-point list `[[0,0],[1,1]]` is an
accepted input (a non-empty array of numeric pairs) and is returned
unchanged, violating the ring invariant (first ≠ last, fewer than 3
distinct vertices). -/
theorem normalizeBoundary_invariant_counterexample :
    normalizeBoundary (.arr [(0, 0), (1, 1)]) = Except.ok [(0, 0), (1, 1)] ∧
    ¬ RingInvariant [(0, 0), (1, 1)] := by
  constructor
  · rfl
  · intro h
    have h1 := h.1
    simp [List.getLast?] at h1

/-- C6 amended: `normalizeBoundary` does not enforce the ring invariant:
array inputs are passed through unchanged (so the invariant holds only
when the input already satisfies it); of the normalizer's own
constructions, the rectangle expansion of a non-degenerate bounds input
does satisfy the invariant. -/
theorem normalizeBoundary_passthrough_and_bounds_invariant :
    (∀ l : List (ℚ × ℚ), l ≠ [] → normalizeBoundary (.arr l) = Except.ok l) ∧
    (∀ s w n e : ℚ, s < n → w < e →
      normalizeBoundary (.bounds ⟨s, w, n, e⟩) =
        Except.ok [(s, w), (n, w), (n, e), (s, e), (s, w)] ∧
      RingInvariant [(s, w), (n, w), (n, e), (s, e), (s, w)]) := by
  constructor
  · intro l hl
    rw [normalizeBoundary, if_pos (List.length_pos.mpr hl)]
  · intro s w n e hsn hwe
    refine ⟨rfl, ?_, (s, w), by simp, (n, w), by simp, (n, e), by simp, ?_, ?_, ?_⟩
    · simp [List.getLast?]
    · simp only [ne_eq, Prod.mk.injEq, not_and]
      intro h; exact absurd h (ne_of_lt hsn)
    · simp only [ne_eq, Prod.mk.injEq, not_and]
      intro h; exact absurd h (ne_of_lt hsn)
    · simp only [ne_eq, Prod.mk.injEq, not_and]
      intro _; exact fun h => absurd h (ne_of_lt hwe)

/-- Witness for C6's amended theorem at concrete inputs. -/
theorem normalizeBoundary_passthrough_witness :
    ([((5 : ℚ), (5 : ℚ))] ≠ ([] : List (ℚ × ℚ))) ∧
    normalizeBoundary (.arr [(5, 5)]) = Except.ok [(5, 5)] ∧
    ((0 : ℚ) < 2 ∧ (0 : ℚ) < 3) ∧
    RingInvariant [((0 : ℚ), (0 : ℚ)), (2, 0), (2, 3), (0, 3), (0, 0)] :=
  ⟨by simp,
   normalizeBoundary_passthrough_and_bounds_invariant.1 _ (by simp),
   ⟨by norm_num, by norm_num⟩,
   (normalizeBoundary_passthrough_and_bounds_invariant.2 0 0 2 3
      (by norm_num) (by norm_num)).2⟩

/-- C8: an input matching none of the recognized boundary shapes makes
`normalizeBoundary` fail synchronously with the error message naming the
accepted formats, and construction through either factory propagates
that error, producing no layer state. -/
theorem unsupported_boundary_error (opts : WmsOptions) :
    ∀ b : BoundaryIn, recognizedBoundary b = false →
      normalizeBoundary b = Except.error unsupportedBoundaryMsg ∧
      tileLayerClippedFactory opts b = Except.error unsupportedBoundaryMsg ∧
      imageOverlayClippedFactory opts b = Except.error unsupportedBoundaryMsg := by
  intro b
  induction b with
  | arr l =>
      intro h
      simp only [recognizedBoundary, decide_eq_false_iff_not] at h
      have : normalizeBoundary (.arr l) = Except.error unsupportedBoundaryMsg := by
        rw [normalizeBoundary, if_neg h]
      exact ⟨this, by simp [tileLayerClippedFactory, this, Except.map],
        by simp [imageOverlayClippedFactory, this, Except.map]⟩
  | bounds b => intro h; simp [recognizedBoundary] at h
  | polygon rings => intro h; simp [recognizedBoundary] at h
  | geoPolygon coords => intro h; simp [recognizedBoundary] at h
  | geoMultiPolygon coords => intro h; simp [recognizedBoundary] at h
  | feature g ih =>
      intro h
      simp only [recognizedBoundary] at h
      obtain ⟨h1, -, -⟩ := ih h
      have : normalizeBoundary (.feature g) = Except.error unsupportedBoundaryMsg := by
        rw [normalizeBoundary]; exact h1
      exact ⟨this, by simp [tileLayerClippedFactory, this, Except.map],
        by simp [imageOverlayClippedFactory, this, Except.map]⟩
  | unrecognized =>
      intro _
      exact ⟨rfl, rfl, rfl⟩

/-- Witness for C8 at the unrecognized input. -/
theorem unsupported_boundary_error_witness :
    recognizedBoundary .unrecognized = false ∧
    normalizeBoundary .unrecognized = Except.error unsupportedBoundaryMsg ∧
    tileLayerClippedFactory ⟨none, none⟩ .unrecognized = Except.error unsupportedBoundaryMsg :=
  ⟨rfl, (unsupported_boundary_error ⟨none, none⟩ .unrecognized rfl).1,
    (unsupported_boundary_error ⟨none, none⟩ .unrecognized rfl).2.1⟩

/-- C4 counterexample: construct a layer from the rectangle ring passed
as an array reference, mutate the array returned by `getBoundary`, and a
subsequent read observes the mutated ring, not the original one — the
returned structure is an alias of internal state, not a snapshot. -/
theorem getBoundary_alias_counterexample :
    readBoundary c4Mutated c4Constructed.2 = [(0, 0), (1, 1), (2, 0), (0, 0)] ∧
    readBoundary c4Mutated c4Constructed.2 ≠ rectRingQ := by
  constructor
  · rfl
  · intro h
    rw [readBoundary, c4Mutated, c4Constructed] at h
    simp [heapWrite, layerConstructRef, normalizeBoundaryRef, getBoundaryRefFn,
      c4Heap0, rectRingQ] at h

/-- C4 amended: `getBoundary` returns the layer's internal ring by
reference, and a boundary passed as an array of `[lat, lng]` pairs is
stored without copying, so mutation through either alias is observed by
all subsequent reads. -/
theorem getBoundary_returns_alias :
    (∀ (h : ArrayHeap) (fresh r : HeapRef),
      normalizeBoundaryRef h fresh (.arrRef r) = (h, r) ∧
      getBoundaryRefFn (layerConstructRef h fresh (.arrRef r)).2 = r) ∧
    (∀ (h : ArrayHeap) (s : TileLayerRefState) (v : List (ℚ × ℚ)),
      readBoundary (heapWrite h (getBoundaryRefFn s) v) s = v) := by
  refine ⟨fun h fresh r => ⟨rfl, rfl⟩, fun h s v => ?_⟩
  simp [readBoundary, heapWrite, getBoundaryRefFn]

/-- C9: a failed image fetch is surfaced through the completion path of
the strategy that issued it — the per-tile `done` callback receives the
explicit error, the viewport overlay's error handler reports it — no
internal retry is issued (each request trace contains exactly one
fetch), the layer state is untouched by any outcome, and subsequent
`setBoundary` calls behave exactly as before the failure. -/
theorem fetch_failure_surfaced_local :
    ∀ (s : TileLayerState) (s2 : OverlayState) (e : String) (o : TileFetchOutcome)
      (o2 : OverlayFetchOutcome) (b : BoundaryIn),
      createTileTrace s (.callbackError e) = (s, [.issueFetch, .callDone (.error e)]) ∧
      createTileTrace s .loadFailed =
        (s, [.issueFetch, .callDone (.error "Failed to load tile")]) ∧
      (createTileTrace s o).2.count .issueFetch = 1 ∧
      (createTileTrace s o).1 = s ∧
      overlayUpdateTrace s2 .failed = (s2, [.issueFetch, .logWmsError]) ∧
      (overlayUpdateTrace s2 o2).2.count .issueFetch = 1 ∧
      (overlayUpdateTrace s2 o2).1 = s2 ∧
      setBoundaryTile (createTileTrace s o).1 b = setBoundaryTile s b := by
  intro s s2 e o o2 b
  cases o <;> cases o2 <;> exact ⟨rfl, rfl, rfl, rfl, rfl, rfl, rfl, rfl⟩

/-- C1 (code bug): in inverted mode the code clips to the *inside* of
the ring, performs a fill with the fully transparent color (a no-op),
and then draws the image through that same inside-clip — so the
rendered mask is pixel-for-pixel identical to non-inverted mode, not its
opposite.  Concretely, for the spec's rectangle and an opaque image, the
rectangle's center pixel is included in inverted mode (the claim says it
must be excluded) and an outside pixel is excluded (the claim says it
must be included).  The first conjunct shows the branch equivalence for
the clip-draw sequence shared verbatim by `_applyClip` and
`_applyClipToImage`. -/
theorem invertClip_draws_same_as_normal :
    (∀ (ring : List (Pt ℚ)) (img : Pt ℚ → Bool) (p : Pt ℚ),
        (clipDrawOps true ring img).pixels p = (clipDrawOps false ring img).pixels p) ∧
    (applyClipToImage true rectRingQ projSwap fullImg).pixels ⟨15, 15⟩ = true ∧
    (applyClipToImage false rectRingQ projSwap fullImg).pixels ⟨15, 15⟩ = true ∧
    (applyClipToImage true rectRingQ projSwap fullImg).pixels ⟨100, 100⟩ = false := by
  refine ⟨fun ring img p => rfl, ?_, ?_, ?_⟩ <;>
    norm_num [applyClipToImage, clipDrawOps, ctxClip, ctxNew, ctxFillTransparent,
      ctxDrawImage, pathOfRing, fullImg, pointInPolygon, cyclicEdges, prevList,
      consecEdges, edgeCrossing, straddleB, crossXf, rectRingQ, projSwap]

/-! ### Tile/boundary intersection heuristic (C2) -/

/-- A running minimum stays below a running maximum. -/
lemma foldl_min_le_foldl_max {γ : Type} (f : γ → ℝ) :
    ∀ (ps : List γ) (a b : ℝ), a ≤ b →
      ps.foldl (fun m q => min m (f q)) a ≤ ps.foldl (fun m q => max m (f q)) b := by
  intro ps
  induction ps with
  | nil => intro a b h; simpa using h
  | cons q qs ih =>
      intro a b h
      simp only [List.foldl_cons]
      exact ih _ _ (le_trans (min_le_left a (f q)) (le_trans h (le_max_left b (f q))))

/-- The ring's minimum latitude is at most its maximum latitude. -/
lemma ringMinLat_le_ringMaxLat (l : List (ℝ × ℝ)) (hl : l ≠ []) :
    ringMinLat l ≤ ringMaxLat l := by
  cases l with
  | nil => exact absurd rfl hl
  | cons p ps => exact foldl_min_le_foldl_max Prod.fst ps p.1 p.1 le_rfl

/-- The ring's minimum longitude is at most its maximum longitude. -/
lemma ringMinLng_le_ringMaxLng (l : List (ℝ × ℝ)) (hl : l ≠ []) :
    ringMinLng l ≤ ringMaxLng l := by
  cases l with
  | nil => exact absurd rfl hl
  | cons p ps => exact foldl_min_le_foldl_max Prod.snd ps p.2 p.2 le_rfl

/-- C2: `_tileIntersectsBoundary` returns true iff some tile corner is
inside the ring (ray casting on lng/lat), or some ring vertex is inside
the tile's geographic bounds, or the tile's axis-aligned bounds overlap
the ring's axis-aligned bounds (min/max over all vertices). -/
theorem tileIntersectsBoundary_iff (boundary : List (ℝ × ℝ)) (hb : boundary ≠ [])
    (c : TileCoords) :
    tileIntersectsBoundary boundary c = true ↔
      ((∃ ll ∈ tileCornersList c, pointInBoundary boundary ll = true) ∨
       (∃ p ∈ boundary, (tileCoordsToBounds c).containsLL ⟨p.1, p.2⟩ = true) ∨
       ((tileCoordsToBounds c).south ≤ ringMaxLat boundary ∧
        ringMinLat boundary ≤ (tileCoordsToBounds c).north ∧
        (tileCoordsToBounds c).west ≤ ringMaxLng boundary ∧
        ringMinLng boundary ≤ (tileCoordsToBounds c).east)) := by
  have hlat := ringMinLat_le_ringMaxLat boundary hb
  have hlng := ringMinLng_le_ringMaxLng boundary hb
  have hbb : (tileCoordsToBounds c).intersectsB (getBoundaryBounds boundary) = true ↔
      ((tileCoordsToBounds c).south ≤ ringMaxLat boundary ∧
       ringMinLat boundary ≤ (tileCoordsToBounds c).north ∧
       (tileCoordsToBounds c).west ≤ ringMaxLng boundary ∧
       ringMinLng boundary ≤ (tileCoordsToBounds c).east) := by
    rw [LatLngBounds.intersectsB, getBoundaryBounds, mkLatLngBounds]
    simp only [Bool.and_eq_true, decide_eq_true_eq, ge_iff_le]
    rw [min_eq_left hlat, max_eq_right hlat, min_eq_left hlng, max_eq_right hlng]
    constructor
    · rintro ⟨⟨h1, h2⟩, h3, h4⟩; exact ⟨h2, h1, h4, h3⟩
    · rintro ⟨h1, h2, h3, h4⟩; exact ⟨⟨h2, h1⟩, ⟨h4, h3⟩⟩
  rw [tileIntersectsBoundary]
  split_ifs with h1 h2
  · simp only [true_iff]
    exact Or.inl (by simpa using List.any_eq_true.mp h1)
  · simp only [true_iff]
    exact Or.inr (Or.inl (by simpa using List.any_eq_true.mp h2))
  · rw [hbb]
    constructor
    · exact fun h => Or.inr (Or.inr h)
    · rintro (h | h | h)
      · exact absurd (List.any_eq_true.mpr (by simpa using h)) h1
      · exact absurd (List.any_eq_true.mpr (by simpa using h)) h2
      · exact h

/-- Witness for C2 at a one-vertex ring and the root tile. -/
theorem tileIntersectsBoundary_iff_witness :
    ([((10 : ℝ), (10 : ℝ))] ≠ ([] : List (ℝ × ℝ))) ∧
    (tileIntersectsBoundary [((10 : ℝ), (10 : ℝ))] ⟨0, 0, 0⟩ = true ↔
      ((∃ ll ∈ tileCornersList ⟨0, 0, 0⟩,
          pointInBoundary [((10 : ℝ), (10 : ℝ))] ll = true) ∨
       (∃ p ∈ [((10 : ℝ), (10 : ℝ))],
          (tileCoordsToBounds ⟨0, 0, 0⟩).containsLL ⟨p.1, p.2⟩ = true) ∨
       ((tileCoordsToBounds ⟨0, 0, 0⟩).south ≤ ringMaxLat [((10 : ℝ), (10 : ℝ))] ∧
        ringMinLat [((10 : ℝ), (10 : ℝ))] ≤ (tileCoordsToBounds ⟨0, 0, 0⟩).north ∧
        (tileCoordsToBounds ⟨0, 0, 0⟩).west ≤ ringMaxLng [((10 : ℝ), (10 : ℝ))] ∧
        ringMinLng [((10 : ℝ), (10 : ℝ))] ≤ (tileCoordsToBounds ⟨0, 0, 0⟩).east))) :=
  ⟨by simp, tileIntersectsBoundary_iff [((10 : ℝ), (10 : ℝ))] (by simp) ⟨0, 0, 0⟩⟩

/-! ### Projection round trip (C3) -/

/-- The tile's west longitude bound is strictly below its east bound. -/
lemma tileLonMin_lt_tileLonMax (c : TileCoords) : tileLonMin c < tileLonMax c := by
  rw [tileLonMin, tileLonMax]
  have hn : (0 : ℝ) < 2 ^ c.z := by positivity
  have : (c.x : ℝ) / 2 ^ c.z < ((c.x : ℝ) + 1) / 2 ^ c.z :=
    (div_lt_div_iff_of_pos_right hn).mpr (by linarith)
  linarith

/-- The tile's south latitude bound is strictly below its north bound:
the Mercator row-to-latitude map is strictly decreasing in the row. -/
lemma tileLatMin_lt_tileLatMax (c : TileCoords) : tileLatMin c < tileLatMax c := by
  rw [tileLatMin, tileLatMax]
  have hn : (0 : ℝ) < 2 ^ c.z := by positivity
  have hpi : (0 : ℝ) < Real.pi := Real.pi_pos
  have hrow : (c.y : ℝ) / 2 ^ c.z < ((c.y : ℝ) + 1) / 2 ^ c.z :=
    (div_lt_div_iff_of_pos_right hn).mpr (by linarith)
  have harg : Real.pi * (1 - 2 * ((c.y : ℝ) + 1) / 2 ^ c.z) <
      Real.pi * (1 - 2 * (c.y : ℝ) / 2 ^ c.z) := by
    apply mul_lt_mul_of_pos_left ?_ hpi
    have h2 : 2 * (c.y : ℝ) / 2 ^ c.z < 2 * ((c.y : ℝ) + 1) / 2 ^ c.z := by
      rw [mul_div_assoc, mul_div_assoc]
      linarith
    linarith
  have hsinh : Real.sinh (Real.pi * (1 - 2 * ((c.y : ℝ) + 1) / 2 ^ c.z)) <
      Real.sinh (Real.pi * (1 - 2 * (c.y : ℝ) / 2 ^ c.z)) := Real.sinh_lt_sinh.mpr harg
  have harctan := Real.arctan_strictMono hsinh
  have h180 : (0 : ℝ) < 180 / Real.pi := by positivity
  calc Real.arctan (Real.sinh (Real.pi * (1 - 2 * ((c.y : ℝ) + 1) / 2 ^ c.z))) * 180 / Real.pi
      = Real.arctan (Real.sinh (Real.pi * (1 - 2 * ((c.y : ℝ) + 1) / 2 ^ c.z))) * (180 / Real.pi) := by
        ring
    _ < Real.arctan (Real.sinh (Real.pi * (1 - 2 * (c.y : ℝ) / 2 ^ c.z))) * (180 / Real.pi) :=
        mul_lt_mul_of_pos_right harctan h180
    _ = Real.arctan (Real.sinh (Real.pi * (1 - 2 * (c.y : ℝ) / 2 ^ c.z))) * 180 / Real.pi := by
        ring

/-- C3: feeding the four corners of a tile's own bounds (as computed by
`_tileCoordsToBounds`) back through `projectToTilePixels` yields exactly
the four pixel corners `(0,0)`, `(tileSize,0)`, `(0,tileSize)`,
`(tileSize,tileSize)` — here exactly over `ℝ`, hence a fortiori within
floating-point tolerance. -/
theorem projectToTilePixels_tileBounds_roundTrip (x y z : ℕ) (ts : TileSize)
    (hx : x < 2 ^ z) (hy : y < 2 ^ z) :
    projectToTilePixels ((tileCoordsToBounds ⟨x, y, z⟩).getNorthWest) ⟨x, y, z⟩ ts = ⟨0, 0⟩ ∧
    projectToTilePixels ((tileCoordsToBounds ⟨x, y, z⟩).getNorthEast) ⟨x, y, z⟩ ts = ⟨ts.x, 0⟩ ∧
    projectToTilePixels ((tileCoordsToBounds ⟨x, y, z⟩).getSouthWest) ⟨x, y, z⟩ ts = ⟨0, ts.y⟩ ∧
    projectToTilePixels ((tileCoordsToBounds ⟨x, y, z⟩).getSouthEast) ⟨x, y, z⟩ ts = ⟨ts.x, ts.y⟩ := by
  have hlon := tileLonMin_lt_tileLonMax ⟨x, y, z⟩
  have hlat := tileLatMin_lt_tileLatMax ⟨x, y, z⟩
  have hlon' : tileLonMax ⟨x, y, z⟩ - tileLonMin ⟨x, y, z⟩ ≠ 0 :=
    sub_ne_zero.mpr hlon.ne'
  have hlat' : tileLatMax ⟨x, y, z⟩ - tileLatMin ⟨x, y, z⟩ ≠ 0 :=
    sub_ne_zero.mpr hlat.ne'
  have hNW : (tileCoordsToBounds ⟨x, y, z⟩).getNorthWest =
      ⟨tileLatMax ⟨x, y, z⟩, tileLonMin ⟨x, y, z⟩⟩ := by
    rw [tileCoordsToBounds, mkLatLngBounds, LatLngBounds.getNorthWest]
    simp only
    rw [max_eq_right hlat.le, min_eq_left hlon.le]
  have hNE : (tileCoordsToBounds ⟨x, y, z⟩).getNorthEast =
      ⟨tileLatMax ⟨x, y, z⟩, tileLonMax ⟨x, y, z⟩⟩ := by
    rw [tileCoordsToBounds, mkLatLngBounds, LatLngBounds.getNorthEast]
    simp only
    rw [max_eq_right hlat.le, max_eq_right hlon.le]
  have hSW : (tileCoordsToBounds ⟨x, y, z⟩).getSouthWest =
      ⟨tileLatMin ⟨x, y, z⟩, tileLonMin ⟨x, y, z⟩⟩ := by
    rw [tileCoordsToBounds, mkLatLngBounds, LatLngBounds.getSouthWest]
    simp only
    rw [min_eq_left hlat.le, min_eq_left hlon.le]
  have hSE : (tileCoordsToBounds ⟨x, y, z⟩).getSouthEast =
      ⟨tileLatMin ⟨x, y, z⟩, tileLonMax ⟨x, y, z⟩⟩ := by
    rw [tileCoordsToBounds, mkLatLngBounds, LatLngBounds.getSouthEast]
    simp only
    rw [min_eq_left hlat.le, max_eq_right hlon.le]
  refine ⟨?_, ?_, ?_, ?_⟩
  · rw [hNW, projectToTilePixels]
    simp [sub_self]
  · rw [hNE, projectToTilePixels]
    simp only [Pt.mk.injEq]
    constructor
    · rw [div_self hlon', one_mul]
    · simp [sub_self]
  · rw [hSW, projectToTilePixels]
    simp only [Pt.mk.injEq]
    constructor
    · simp [sub_self]
    · rw [div_self hlat', one_mul]
  · rw [hSE, projectToTilePixels]
    simp only [Pt.mk.injEq]
    constructor
    · rw [div_self hlon', one_mul]
    · rw [div_self hlat', one_mul]

/-- Witness for C3 at the root tile with 256-pixel tiles. -/
theorem projectToTilePixels_roundTrip_witness :
    ((0 : ℕ) < 2 ^ 0) ∧
    (projectToTilePixels ((tileCoordsToBounds ⟨0, 0, 0⟩).getNorthWest) ⟨0, 0, 0⟩ ⟨256, 256⟩ =
        ⟨0, 0⟩ ∧
     projectToTilePixels ((tileCoordsToBounds ⟨0, 0, 0⟩).getNorthEast) ⟨0, 0, 0⟩ ⟨256, 256⟩ =
        ⟨(256 : ℝ), 0⟩ ∧
     projectToTilePixels ((tileCoordsToBounds ⟨0, 0, 0⟩).getSouthWest) ⟨0, 0, 0⟩ ⟨256, 256⟩ =
        ⟨0, (256 : ℝ)⟩ ∧
     projectToTilePixels ((tileCoordsToBounds ⟨0, 0, 0⟩).getSouthEast) ⟨0, 0, 0⟩ ⟨256, 256⟩ =
        ⟨(256 : ℝ), (256 : ℝ)⟩) :=
  ⟨by decide, projectToTilePixels_tileBounds_roundTrip 0 0 0 ⟨256, 256⟩ (by decide) (by decide)⟩

/-! ### Ray-casting analysis (C7): parity and edge-list lemmas -/

section EdgeLemmas

variable {β : Type}

/-- The predecessor list is a permutation of the list itself. -/
lemma prevList_perm (l : List β) : List.Perm (prevList l) l := by
  cases l with
  | nil => exact List.Perm.refl _
  | cons a as =>
      show List.Perm (as.getLastD a :: (a :: as).dropLast) (a :: as)
      have h1 : as.getLastD a = (a :: as).getLast (List.cons_ne_nil a as) :=
        (List.getLast_eq_getLastD a as (List.cons_ne_nil a as)).symm
      have h2 : List.Perm (as.getLastD a :: (a :: as).dropLast)
          ((a :: as).dropLast ++ [as.getLastD a]) :=
        (List.perm_append_singleton _ _).symm
      have h3 : (a :: as).dropLast ++ [as.getLastD a] = a :: as := by
        rw [h1]
        exact List.dropLast_append_getLast (List.cons_ne_nil a as)
      rw [h3] at h2
      exact h2

/-- `prevList` preserves length. -/
lemma prevList_length (l : List β) : (prevList l).length = l.length :=
  (prevList_perm l).length_eq

/-- Both endpoints of a cyclic edge are vertices of the polygon. -/
lemma mem_of_mem_cyclicEdges {l : List β} {e : β × β} (h : e ∈ cyclicEdges l) :
    e.1 ∈ l ∧ e.2 ∈ l := by
  obtain ⟨h1, h2⟩ := List.of_mem_zip (a := e.1) (b := e.2) (by simpa using h)
  exact ⟨(prevList_perm l).subset h1, h2⟩

/-- The second components of the cyclic edges are the list itself. -/
lemma cyclicEdges_map_snd (l : List β) : (cyclicEdges l).map Prod.snd = l :=
  List.map_snd_zip _ _ (le_of_eq (prevList_length l).symm)

/-- The first components of the cyclic edges are the predecessor list. -/
lemma cyclicEdges_map_fst (l : List β) : (cyclicEdges l).map Prod.fst = prevList l :=
  List.map_fst_zip _ _ (le_of_eq (prevList_length l))

/-- Head/tail decomposition of the cyclic edge list: the wrap-around
edge followed by the consecutive path edges. -/
lemma cyclicEdges_cons (a : β) (as : List β) :
    cyclicEdges (a :: as) = (as.getLastD a, a) :: consecEdges (a :: as) := rfl

/-- The flip-fold underlying `pointInPolygon` computes the parity of the
number of satisfied edges. -/
lemma foldl_flip_parity (f : β → Bool) (es : List β) :
    ∀ acc : Bool,
      es.foldl (fun b e => if f e then !b else b) acc =
        (acc != decide (es.countP f % 2 = 1)) := by
  induction es with
  | nil => intro acc; simp
  | cons e es ih =>
      intro acc
      rw [List.foldl_cons, ih, List.countP_cons]
      by_cases h : f e
      · by_cases hp : es.countP f % 2 = 1
        · have h1 : ¬((es.countP f + 1) % 2 = 1) := by omega
          cases acc <;> simp [h, hp, h1]
        · have h1 : (es.countP f + 1) % 2 = 1 := by omega
          cases acc <;> simp [h, hp, h1]
      · simp [h]

/-- `pointInPolygon` equals the parity of the crossing count. -/
lemma pointInPolygon_eq_parity {α : Type} [LinearOrderedField α]
    (q : Pt α) (l : List (Pt α)) :
    pointInPolygon q l =
      decide ((cyclicEdges l).countP (edgeCrossing q) % 2 = 1) := by
  rw [pointInPolygon, foldl_flip_parity]
  cases h : decide ((cyclicEdges l).countP (edgeCrossing q) % 2 = 1) <;> simp [h]

/-- Along a path with no false-to-true transition, falsity at the head
propagates to every element. -/
lemma path_false_prop (f : β → Bool) :
    ∀ (as : List β) (a : β), f a = false →
      (∀ e ∈ consecEdges (a :: as), f e.1 = false → f e.2 = false) →
      ∀ p ∈ a :: as, f p = false := by
  intro as
  induction as with
  | nil =>
      intro a ha _ p hp
      rw [List.mem_singleton.mp hp]; exact ha
  | cons b bs ih =>
      intro a ha hchain p hp
      have hab : f b = false :=
        hchain (a, b) (by rw [show consecEdges (a :: b :: bs) =
          (a, b) :: consecEdges (b :: bs) from rfl]; exact List.mem_cons_self _ _) ha
      have hchain' : ∀ e ∈ consecEdges (b :: bs), f e.1 = false → f e.2 = false := by
        intro e he
        exact hchain e (by rw [show consecEdges (a :: b :: bs) =
          (a, b) :: consecEdges (b :: bs) from rfl]; exact List.mem_cons_of_mem _ he)
      rcases List.mem_cons.mp hp with rfl | hp'
      · exact ha
      · exact ih b hab hchain' p hp'

/-- Along a path with no false-to-true transition, falsity anywhere
propagates to the last element. -/
lemma path_false_last (f : β → Bool) :
    ∀ (as : List β) (a : β),
      (∀ e ∈ consecEdges (a :: as), f e.1 = false → f e.2 = false) →
      ∀ p ∈ a :: as, f p = false → f (as.getLastD a) = false := by
  intro as
  induction as with
  | nil =>
      intro a _ p hp hfp
      rw [List.getLastD_nil]
      rwa [List.mem_singleton.mp hp] at hfp
  | cons b bs ih =>
      intro a hchain p hp hfp
      rw [List.getLastD_cons]
      have hchain' : ∀ e ∈ consecEdges (b :: bs), f e.1 = false → f e.2 = false := by
        intro e he
        exact hchain e (by rw [show consecEdges (a :: b :: bs) =
          (a, b) :: consecEdges (b :: bs) from rfl]; exact List.mem_cons_of_mem _ he)
      rcases List.mem_cons.mp hp with rfl | hp'
      · have hb : f b = false :=
          hchain (p, b) (by rw [show consecEdges (p :: b :: bs) =
            (p, b) :: consecEdges (b :: bs) from rfl]; exact List.mem_cons_self _ _) hfp
        exact ih b hchain' b (List.mem_cons_self _ _) hb
      · exact ih b hchain' p hp' hfp

/-- A cyclic list on which a Boolean predicate takes both values has a
false-to-true transition along some cyclic edge. -/
lemma exists_rise (f : β → Bool) (l : List β)
    (hT : ∃ p ∈ l, f p = true) (hF : ∃ p ∈ l, f p = false) :
    ∃ e ∈ cyclicEdges l, f e.1 = false ∧ f e.2 = true := by
  by_contra hno
  push_neg at hno
  have hno' : ∀ e ∈ cyclicEdges l, f e.1 = false → f e.2 = false := by
    intro e he h1
    rcases Bool.eq_false_or_eq_true (f e.2) with h | h
    · exact absurd h (hno e he h1)
    · exact h
  cases l with
  | nil => obtain ⟨p, hp, -⟩ := hT; exact absurd hp (List.not_mem_nil p)
  | cons a as =>
      have hconsec : ∀ e ∈ consecEdges (a :: as), f e.1 = false → f e.2 = false := by
        intro e he
        exact hno' e (by rw [cyclicEdges_cons]; exact List.mem_cons_of_mem _ he)
      rcases Bool.eq_false_or_eq_true (f a) with hfa | hfa
      · obtain ⟨p, hp, hpfalse⟩ := hF
        have hlast : f (as.getLastD a) = false :=
          path_false_last f as a hconsec p hp hpfalse
        have : f a = false :=
          hno' (as.getLastD a, a)
            (by rw [cyclicEdges_cons]; exact List.mem_cons_self _ _) hlast
        rw [this] at hfa
        exact Bool.false_ne_true hfa
      · obtain ⟨p, hp, hptrue⟩ := hT
        have := path_false_prop f as a hfa hconsec p hp
        rw [this] at hptrue
        exact Bool.false_ne_true hptrue

/-- In a cyclic edge list, the number of edges whose endpoints disagree
on a Boolean predicate is even. -/
lemma countP_diff_consec (f : β → Bool) :
    ∀ (as : List β) (a : β),
      (consecEdges (a :: as)).countP (fun e => f e.1 != f e.2) % 2 =
        (if f a != f (as.getLastD a) then 1 else 0) := by
  intro as
  induction as with
  | nil => intro a; simp [consecEdges]
  | cons b bs ih =>
      intro a
      rw [show consecEdges (a :: b :: bs) = (a, b) :: consecEdges (b :: bs) from rfl,
        List.countP_cons, List.getLastD_cons]
      have hthis := ih b
      cases hfa : f a <;> cases hfb : f b <;> cases hfl : f (bs.getLastD b) <;>
        simp only [hfa, hfb, hfl, Bool.false_bne, Bool.true_bne, Bool.bne_false,
          Bool.bne_true, Bool.not_true, Bool.not_false, bne_self_eq_false,
          if_true, if_false, Bool.false_eq_true, ite_true, ite_false] at hthis ⊢ <;>
        omega

/-- See `countP_diff_consec`: over the full cycle the disagreement count
is even. -/
lemma countP_diff_cyclic_even (f : β → Bool) (l : List β) :
    (cyclicEdges l).countP (fun e => f e.1 != f e.2) % 2 = 0 := by
  cases l with
  | nil => simp [cyclicEdges, prevList]
  | cons a as =>
      rw [cyclicEdges_cons, List.countP_cons]
      have h := countP_diff_consec f as a
      have hsymm : ((f (as.getLastD a) != f a) = true) ↔ ((f a != f (as.getLastD a)) = true) := by
        cases f a <;> cases f (as.getLastD a) <;> simp
      by_cases hd : (f a != f (as.getLastD a)) = true
      · rw [if_pos (hsymm.mpr hd)] at *
        rw [if_pos hd] at h
        omega
      · rw [if_neg (fun hc => hd (hsymm.mp hc))]
        rw [if_neg hd] at h
        omega

/-- Restatement of `countP_diff_cyclic_even` for any predicate equal to
the disagreement test, stated through `Even`. -/
lemma countP_diff_cyclic_even' (f : β → Bool) (P : β × β → Bool)
    (hP : ∀ e : β × β, P e = (f e.1 != f e.2)) (l : List β) :
    Even ((cyclicEdges l).countP P) := by
  have h : (cyclicEdges l).countP P =
      (cyclicEdges l).countP (fun e => f e.1 != f e.2) :=
    List.countP_congr (fun e _ => by rw [hP e])
  rw [h]
  exact Nat.even_iff.mpr (countP_diff_cyclic_even f l)

end EdgeLemmas

/-! ### Ray-casting analysis (C7): geometric lemmas over `ℚ` -/

section ConvexGeometry

/-- Decode the straddle test into its two orderings: the edge either
descends or ascends past the query height. -/
lemma straddle_cases (q : Pt ℚ) (e : Pt ℚ × Pt ℚ) (h : straddleB q e = true) :
    (e.2.y ≤ q.y ∧ q.y < e.1.y) ∨ (e.1.y ≤ q.y ∧ q.y < e.2.y) := by
  by_cases h2 : e.2.y > q.y <;> by_cases h1 : e.1.y > q.y
  · exfalso; rw [straddleB, decide_eq_true h2, decide_eq_true h1] at h; simp at h
  · exact Or.inr ⟨le_of_not_lt h1, h2⟩
  · exact Or.inl ⟨le_of_not_lt h2, h1⟩
  · exfalso; rw [straddleB, decide_eq_false h2, decide_eq_false h1] at h; simp at h

/-- The interpolation parameter of a straddling edge lies in `[0, 1]`. -/
lemma crossXf_t_bounds (u v : Pt ℚ) (qy : ℚ)
    (h : (v.y ≤ qy ∧ qy < u.y) ∨ (u.y ≤ qy ∧ qy < v.y)) :
    0 ≤ (qy - v.y) / (u.y - v.y) ∧ (qy - v.y) / (u.y - v.y) ≤ 1 := by
  rcases h with ⟨h1, h2⟩ | ⟨h1, h2⟩
  · have hd : 0 < u.y - v.y := by linarith
    exact ⟨div_nonneg (by linarith) hd.le, by rw [div_le_one hd]; linarith⟩
  · have hd : u.y - v.y < 0 := by linarith
    exact ⟨div_nonneg_of_nonpos (by linarith) hd.le,
      by rw [div_le_iff_of_neg hd]; linarith⟩

/-- The crossing x of a straddling edge stays strictly below any bound
exceeding both endpoint xs. -/
lemma crossXf_lt_of_lt (u v : Pt ℚ) (qy X : ℚ)
    (h : (v.y ≤ qy ∧ qy < u.y) ∨ (u.y ≤ qy ∧ qy < v.y))
    (hu : u.x < X) (hv : v.x < X) : crossXf u v qy < X := by
  set t := (qy - v.y) / (u.y - v.y) with ht
  obtain ⟨ht0, ht1⟩ := crossXf_t_bounds u v qy h
  have hexp : crossXf u v qy = v.x + (u.x - v.x) * t := by
    rw [crossXf, ht]; ring
  have key : X - crossXf u v qy = (1 - t) * (X - v.x) + t * (X - u.x) := by
    rw [hexp]; ring
  have t2 : 0 ≤ t * (X - u.x) := mul_nonneg ht0 (by linarith)
  by_cases hlt : t < 1
  · have t1 : 0 < (1 - t) * (X - v.x) := mul_pos (by linarith) (by linarith)
    linarith
  · have heq : t = 1 := le_antisymm ht1 (le_of_not_lt hlt)
    rw [heq] at key
    have : X - crossXf u v qy = X - u.x := by rw [key]; ring
    linarith

/-- The crossing x of a straddling edge stays strictly above any bound
below both endpoint xs. -/
lemma lt_crossXf_of_lt (u v : Pt ℚ) (qy X : ℚ)
    (h : (v.y ≤ qy ∧ qy < u.y) ∨ (u.y ≤ qy ∧ qy < v.y))
    (hu : X < u.x) (hv : X < v.x) : X < crossXf u v qy := by
  set t := (qy - v.y) / (u.y - v.y) with ht
  obtain ⟨ht0, ht1⟩ := crossXf_t_bounds u v qy h
  have hexp : crossXf u v qy = v.x + (u.x - v.x) * t := by
    rw [crossXf, ht]; ring
  have key : crossXf u v qy - X = (1 - t) * (v.x - X) + t * (u.x - X) := by
    rw [hexp]; ring
  have t2 : 0 ≤ t * (u.x - X) := mul_nonneg ht0 (by linarith)
  by_cases hlt : t < 1
  · have t1 : 0 < (1 - t) * (v.x - X) := mul_pos (by linarith) (by linarith)
    linarith
  · have heq : t = 1 := le_antisymm ht1 (le_of_not_lt hlt)
    rw [heq] at key
    have : crossXf u v qy - X = u.x - X := by rw [key]; ring
    linarith

/-- For an edge ascending past `p.y`, the ray test `p.x < crossX` is the
strict left-side test. -/
lemma lt_crossXf_iff_up (u v p : Pt ℚ) (h : u.y < v.y) :
    (p.x < crossXf u v p.y) ↔ 0 < crossProd u v p := by
  have hd : u.y - v.y < 0 := by linarith
  rw [crossXf, ← sub_lt_iff_lt_add, lt_div_iff_of_neg hd, crossProd]
  constructor <;> intro h' <;> nlinarith [h']

/-- For an edge descending past `p.y`, the ray test is the strict
right-side test. -/
lemma lt_crossXf_iff_down (u v p : Pt ℚ) (h : v.y < u.y) :
    (p.x < crossXf u v p.y) ↔ crossProd u v p < 0 := by
  have hd : 0 < u.y - v.y := by linarith
  rw [crossXf, ← sub_lt_iff_lt_add, lt_div_iff₀ hd, crossProd]
  constructor <;> intro h' <;> nlinarith [h']

/-- Side-test value at an edge's horizontal crossing point, as an
affine combination of the side tests at its endpoints. -/
lemma cross_at_crossXf (a b u v : Pt ℚ) (qy : ℚ) (hne : u.y - v.y ≠ 0) :
    (u.y - v.y) * crossProd a b ⟨crossXf u v qy, qy⟩ =
      (qy - v.y) * crossProd a b u + (u.y - qy) * crossProd a b v := by
  rw [crossXf, crossProd, crossProd, crossProd]
  dsimp only
  field_simp
  ring

/-- The side test is affine, so it sums over a vertex list. -/
lemma sum_map_crossProd (a b : Pt ℚ) (l : List (Pt ℚ)) :
    (l.map (fun p => crossProd a b p)).sum =
      (b.x - a.x) * ((l.map Pt.y).sum - l.length * a.y) -
        (b.y - a.y) * ((l.map Pt.x).sum - l.length * a.x) := by
  induction l with
  | nil => simp
  | cons p ps ih =>
      simp only [List.map_cons, List.sum_cons, List.length_cons]
      rw [ih, show crossProd a b p =
        (b.x - a.x) * (p.y - a.y) - (b.y - a.y) * (p.x - a.x) from rfl]
      push_cast
      ring

/-- The side test at the centroid is the average of the side tests at
the vertices. -/
lemma length_mul_crossProd_centroid (a b : Pt ℚ) (l : List (Pt ℚ)) (hl : l ≠ []) :
    (l.length : ℚ) * crossProd a b (centroid l) =
      (l.map (fun p => crossProd a b p)).sum := by
  have hn : (l.length : ℚ) ≠ 0 := by
    exact_mod_cast (List.length_pos.mpr hl).ne'
  rw [crossProd, centroid]
  dsimp only
  rw [sum_map_crossProd]
  field_simp

/-- A list of nonnegative values with a positive member has positive
sum. -/
lemma sum_pos_of_nonneg_of_exists_pos (l : List (Pt ℚ)) (f : Pt ℚ → ℚ)
    (h0 : ∀ p ∈ l, 0 ≤ f p) (hex : ∃ p ∈ l, 0 < f p) :
    0 < (l.map f).sum := by
  induction l with
  | nil => obtain ⟨p, hp, -⟩ := hex; exact absurd hp (List.not_mem_nil p)
  | cons a as ih =>
      simp only [List.map_cons, List.sum_cons]
      have hrest : 0 ≤ (as.map f).sum := by
        apply List.sum_nonneg
        intro x hx
        obtain ⟨p, hp, rfl⟩ := List.mem_map.mp hx
        exact h0 p (List.mem_cons_of_mem _ hp)
      obtain ⟨p, hp, hppos⟩ := hex
      rcases List.mem_cons.mp hp with rfl | hp'
      · linarith
      · have h1 : 0 < (as.map f).sum :=
          ih (fun r hr => h0 r (List.mem_cons_of_mem _ hr)) ⟨p, hp', hppos⟩
        have h2 : 0 ≤ f a := h0 a (List.mem_cons_self _ _)
        linarith

/-- A list of nonnegative values summing to zero is identically zero. -/
lemma all_zero_of_sum_zero_of_nonneg (l : List (Pt ℚ)) (f : Pt ℚ → ℚ)
    (h0 : ∀ p ∈ l, 0 ≤ f p) (hsum : (l.map f).sum = 0) : ∀ p ∈ l, f p = 0 := by
  induction l with
  | nil => intro p hp; exact absurd hp (List.not_mem_nil p)
  | cons a as ih =>
      simp only [List.map_cons, List.sum_cons] at hsum
      have hrest : 0 ≤ (as.map f).sum := by
        apply List.sum_nonneg
        intro x hx
        obtain ⟨p, hp, rfl⟩ := List.mem_map.mp hx
        exact h0 p (List.mem_cons_of_mem _ hp)
      have ha : 0 ≤ f a := h0 a (List.mem_cons_self _ _)
      have hfa : f a = 0 := by linarith
      have hsum' : (as.map f).sum = 0 := by linarith
      intro p hp
      rcases List.mem_cons.mp hp with rfl | hp'
      · exact hfa
      · exact ih (fun r hr => h0 r (List.mem_cons_of_mem _ hr)) hsum' p hp'

/-- A duplicate-free list of length at least three contains an element
distinct from any two given values. -/
lemma exists_third (l : List (Pt ℚ)) (hn : l.Nodup) (h3 : 3 ≤ l.length)
    (a b : Pt ℚ) : ∃ p ∈ l, p ≠ a ∧ p ≠ b := by
  rcases l with _ | ⟨p1, _ | ⟨p2, _ | ⟨p3, rest⟩⟩⟩
  · simp at h3
  · simp at h3
  · simp at h3
  · have hn1 := List.nodup_cons.mp hn
    have hn2 := List.nodup_cons.mp hn1.2
    have h12 : p1 ≠ p2 := fun h => hn1.1 (h ▸ List.mem_cons_self _ _)
    have h13 : p1 ≠ p3 := fun h =>
      hn1.1 (by rw [h]; exact List.mem_cons_of_mem _ (List.mem_cons_self _ _))
    have h23 : p2 ≠ p3 := fun h => hn2.1 (h ▸ List.mem_cons_self _ _)
    by_cases h1a : p1 = a
    · by_cases h2b : p2 = b
      · refine ⟨p3, by simp, ?_, ?_⟩
        · rw [← h1a]; exact (Ne.symm h13)
        · rw [← h2b]; exact (Ne.symm h23)
      · by_cases h2a : p2 = a
        · exact absurd (h1a.trans h2a.symm) h12
        · exact ⟨p2, by simp, h2a, h2b⟩
    · by_cases h1b : p1 = b
      · by_cases h2a : p2 = a
        · refine ⟨p3, by simp, ?_, ?_⟩
          · rw [← h2a]; exact (Ne.symm h23)
          · rw [← h1b]; exact (Ne.symm h13)
        · by_cases h2b : p2 = b
          · exact absurd (h1b.trans h2b.symm) h12
          · exact ⟨p2, by simp, h2a, h2b⟩
      · exact ⟨p1, by simp, h1a, h1b⟩

/-- The side test vanishes at the edge's own endpoints. -/
lemma crossProd_self_left (u v : Pt ℚ) : crossProd u v u = 0 := by
  rw [crossProd]; ring

/-- See `crossProd_self_left`. -/
lemma crossProd_self_right (u v : Pt ℚ) : crossProd u v v = 0 := by
  rw [crossProd]; ring

/-- Map-sum of pointwise negation. -/
lemma sum_map_neg (l : List (Pt ℚ)) (f : Pt ℚ → ℚ) :
    (l.map (fun p => -(f p))).sum = -((l.map f).sum) := by
  induction l with
  | nil => simp
  | cons a as ih => simp only [List.map_cons, List.sum_cons, ih]; ring

/-- Map-sum of a constant minus the y-coordinates. -/
lemma sum_map_const_sub_y (l : List (Pt ℚ)) (c : ℚ) :
    (l.map (fun p => c - p.y)).sum = l.length * c - (l.map Pt.y).sum := by
  induction l with
  | nil => simp
  | cons a as ih =>
      simp only [List.map_cons, List.sum_cons, List.length_cons, ih]
      push_cast
      ring

/-- Map-sum of the y-coordinates minus a constant. -/
lemma sum_map_sub_const_y (l : List (Pt ℚ)) (c : ℚ) :
    (l.map (fun p => p.y - c)).sum = (l.map Pt.y).sum - l.length * c := by
  induction l with
  | nil => simp
  | cons a as ih =>
      simp only [List.map_cons, List.sum_cons, List.length_cons, ih]
      push_cast
      ring

/-- For a counter-clockwise strictly convex ring, the centroid is
strictly left of every edge. -/
lemma centroid_left_of_ccw (l : List (Pt ℚ)) (hn : l.Nodup) (h3 : 3 ≤ l.length)
    (hccw : ∀ e ∈ cyclicEdges l, ∀ p ∈ l, p ≠ e.1 → p ≠ e.2 → 0 < crossProd e.1 e.2 p) :
    ∀ e ∈ cyclicEdges l, 0 < crossProd e.1 e.2 (centroid l) := by
  intro e he
  have hl : l ≠ [] := by intro h; rw [h] at h3; simp at h3
  have hnonneg : ∀ p ∈ l, 0 ≤ crossProd e.1 e.2 p := by
    intro p hp
    by_cases hp1 : p = e.1
    · rw [hp1, crossProd_self_left]
    · by_cases hp2 : p = e.2
      · rw [hp2, crossProd_self_right]
      · exact (hccw e he p hp hp1 hp2).le
  obtain ⟨p, hp, hp1, hp2⟩ := exists_third l hn h3 e.1 e.2
  have hpos : 0 < (l.map (fun p => crossProd e.1 e.2 p)).sum :=
    sum_pos_of_nonneg_of_exists_pos l _ hnonneg ⟨p, hp, hccw e he p hp hp1 hp2⟩
  have hsum := length_mul_crossProd_centroid e.1 e.2 l hl
  have hlen : (0 : ℚ) < l.length := by exact_mod_cast List.length_pos.mpr hl
  nlinarith [hsum, hpos, hlen]

/-- For a clockwise strictly convex ring, the centroid is strictly
right of every edge. -/
lemma centroid_right_of_cw (l : List (Pt ℚ)) (hn : l.Nodup) (h3 : 3 ≤ l.length)
    (hcw : ∀ e ∈ cyclicEdges l, ∀ p ∈ l, p ≠ e.1 → p ≠ e.2 → crossProd e.1 e.2 p < 0) :
    ∀ e ∈ cyclicEdges l, crossProd e.1 e.2 (centroid l) < 0 := by
  intro e he
  have hl : l ≠ [] := by intro h; rw [h] at h3; simp at h3
  have hnonneg : ∀ p ∈ l, 0 ≤ -(crossProd e.1 e.2 p) := by
    intro p hp
    by_cases hp1 : p = e.1
    · rw [hp1, crossProd_self_left]; norm_num
    · by_cases hp2 : p = e.2
      · rw [hp2, crossProd_self_right]; norm_num
      · linarith [hcw e he p hp hp1 hp2]
  obtain ⟨p, hp, hp1, hp2⟩ := exists_third l hn h3 e.1 e.2
  have hpos : 0 < (l.map (fun p => -(crossProd e.1 e.2 p))).sum :=
    sum_pos_of_nonneg_of_exists_pos l _ hnonneg
      ⟨p, hp, by linarith [hcw e he p hp hp1 hp2]⟩
  rw [sum_map_neg] at hpos
  have hsum := length_mul_crossProd_centroid e.1 e.2 l hl
  have hlen : (0 : ℚ) < l.length := by exact_mod_cast List.length_pos.mpr hl
  nlinarith [hsum, hpos, hlen]

/-- A strictly convex ring is not horizontal: two vertices differ in y. -/
lemma exists_y_ne_of_strict (l : List (Pt ℚ)) (hn : l.Nodup) (h3 : 3 ≤ l.length)
    (hside : (∀ e ∈ cyclicEdges l, ∀ p ∈ l, p ≠ e.1 → p ≠ e.2 → 0 < crossProd e.1 e.2 p) ∨
             (∀ e ∈ cyclicEdges l, ∀ p ∈ l, p ≠ e.1 → p ≠ e.2 → crossProd e.1 e.2 p < 0)) :
    ∃ p ∈ l, ∃ r ∈ l, p.y ≠ r.y := by
  by_contra hno
  push_neg at hno
  have hlenE : (cyclicEdges l).length = l.length := by
    rw [cyclicEdges, List.length_zip, prevList_length, min_self]
  have hEne : cyclicEdges l ≠ [] := by
    intro h
    rw [h] at hlenE
    simp at hlenE
    rw [← hlenE] at h3
    simp at h3
  obtain ⟨e, he⟩ := List.exists_mem_of_ne_nil _ hEne
  obtain ⟨he1, he2⟩ := mem_of_mem_cyclicEdges he
  obtain ⟨p, hp, hp1, hp2⟩ := exists_third l hn h3 e.1 e.2
  have hy1 : p.y = e.1.y := hno p hp e.1 he1
  have hy2 : e.2.y = e.1.y := hno e.2 he2 e.1 he1
  have hcross0 : crossProd e.1 e.2 p = 0 := by
    rw [crossProd, hy1, hy2]; ring
  rcases hside with hccw | hcw
  · exact absurd hcross0 (hccw e he p hp hp1 hp2).ne'
  · exact absurd hcross0 (hcw e he p hp hp1 hp2).ne

/-- When the vertices are not all at one height, the centroid's height
is strictly exceeded by some vertex and strictly exceeds none at all
heights — i.e. both Boolean classes of `y > centroid.y` are inhabited. -/
lemma centroid_y_strict (l : List (Pt ℚ)) (hl : l ≠ [])
    (hne : ∃ p ∈ l, ∃ r ∈ l, p.y ≠ r.y) :
    (∃ p ∈ l, (centroid l).y < p.y) ∧ (∃ p ∈ l, ¬((centroid l).y < p.y)) := by
  have hlen : (0 : ℚ) < l.length := by exact_mod_cast List.length_pos.mpr hl
  have hcy : (centroid l).y = (l.map Pt.y).sum / l.length := rfl
  constructor
  · by_contra hno
    push_neg at hno
    have hnonneg : ∀ p ∈ l, 0 ≤ (centroid l).y - p.y := fun p hp => by
      linarith [hno p hp]
    have hzero : (l.map (fun p => (centroid l).y - p.y)).sum = 0 := by
      rw [sum_map_const_sub_y, hcy]
      field_simp
    have hall := all_zero_of_sum_zero_of_nonneg l _ hnonneg hzero
    obtain ⟨p, hp, r, hr, hpr⟩ := hne
    have h1 : (centroid l).y - p.y = 0 := hall p hp
    have h2 : (centroid l).y - r.y = 0 := hall r hr
    exact hpr (by linarith)
  · by_contra hno
    push_neg at hno
    have hzero : (l.map (fun p => p.y - (centroid l).y)).sum = 0 := by
      rw [sum_map_sub_const_y, hcy]
      field_simp
    obtain ⟨p0, hp0⟩ := List.exists_mem_of_ne_nil l hl
    have hpos : 0 < (l.map (fun p => p.y - (centroid l).y)).sum :=
      sum_pos_of_nonneg_of_exists_pos l _
        (fun p hp => by linarith [hno p hp]) ⟨p0, hp0, by linarith [hno p0 hp0]⟩
    linarith

/-- In a duplicate-free list, a predicate satisfied by at most one
element (up to equality) has count at most one. -/
lemma countP_le_one_of_unique {β : Type} (es : List β) (P : β → Bool)
    (hnd : es.Nodup)
    (huniq : ∀ e ∈ es, P e = true → ∀ e' ∈ es, P e' = true → e = e') :
    es.countP P ≤ 1 := by
  rw [List.countP_eq_length_filter]
  rcases hf : es.filter P with _ | ⟨x, _ | ⟨y, t⟩⟩
  · simp
  · simp
  · exfalso
    have hx : x ∈ es.filter P := by rw [hf]; exact List.mem_cons_self _ _
    have hy : y ∈ es.filter P := by
      rw [hf]; exact List.mem_cons_of_mem _ (List.mem_cons_self _ _)
    have hxm := List.mem_filter.mp hx
    have hym := List.mem_filter.mp hy
    have hxy : x = y := huniq x hxm.1 hxm.2 y hym.1 hym.2
    have hndf : (es.filter P).Nodup := hnd.filter P
    rw [hf] at hndf
    exact (List.nodup_cons.mp hndf).1 (hxy ▸ List.mem_cons_self _ _)

/-- A strictly convex CCW ring has at most one edge ascending past the
height of a point strictly left of every edge: two such edges would
each cross the horizontal line strictly left of the other. -/
lemma upward_unique (l : List (Pt ℚ)) (hn : l.Nodup) (q : Pt ℚ)
    (hccw : ∀ e ∈ cyclicEdges l, ∀ p ∈ l, p ≠ e.1 → p ≠ e.2 → 0 < crossProd e.1 e.2 p) :
    ∀ e ∈ cyclicEdges l, ∀ e' ∈ cyclicEdges l,
      (e.1.y ≤ q.y ∧ q.y < e.2.y) → (e'.1.y ≤ q.y ∧ q.y < e'.2.y) → e = e' := by
  intro e he e' he' hup hup'
  by_contra hne
  have hsndN : ((cyclicEdges l).map Prod.snd).Nodup := by
    rw [cyclicEdges_map_snd]; exact hn
  have hfstN : ((cyclicEdges l).map Prod.fst).Nodup := by
    rw [cyclicEdges_map_fst]; exact ((prevList_perm l).nodup_iff).mpr hn
  have hsnd : e.2 ≠ e'.2 := fun h => hne (List.inj_on_of_nodup_map hsndN he he' h)
  have hfst : e.1 ≠ e'.1 := fun h => hne (List.inj_on_of_nodup_map hfstN he he' h)
  have h12 : e.1 ≠ e'.2 := by
    intro h
    have h1 := hup.1
    rw [h] at h1
    linarith [hup'.2]
  have h21 : e.2 ≠ e'.1 := by
    intro h
    have h1 := hup'.1
    rw [← h] at h1
    linarith [hup.2]
  obtain ⟨he1m, he2m⟩ := mem_of_mem_cyclicEdges he
  obtain ⟨he1m', he2m'⟩ := mem_of_mem_cyclicEdges he'
  have hcu' : 0 < crossProd e.1 e.2 e'.1 := hccw e he e'.1 he1m' (Ne.symm hfst) (Ne.symm h21)
  have hcv' : 0 < crossProd e.1 e.2 e'.2 := hccw e he e'.2 he2m' (Ne.symm h12) (Ne.symm hsnd)
  have hcu : 0 < crossProd e'.1 e'.2 e.1 := hccw e' he' e.1 he1m hfst h12
  have hcv : 0 < crossProd e'.1 e'.2 e.2 := hccw e' he' e.2 he2m h21 hsnd
  have hlt : e.1.y < e.2.y := lt_of_le_of_lt hup.1 hup.2
  have hlt' : e'.1.y < e'.2.y := lt_of_le_of_lt hup'.1 hup'.2
  have hX'X : crossXf e'.1 e'.2 q.y < crossXf e.1 e.2 q.y := by
    have hid := cross_at_crossXf e.1 e.2 e'.1 e'.2 q.y (sub_ne_zero.mpr hlt'.ne)
    have ht1 : (q.y - e'.2.y) * crossProd e.1 e.2 e'.1 < 0 :=
      mul_neg_of_neg_of_pos (by linarith [hup'.2]) hcu'
    have ht2 : (e'.1.y - q.y) * crossProd e.1 e.2 e'.2 ≤ 0 :=
      mul_nonpos_iff.mpr (Or.inr ⟨by linarith [hup'.1], hcv'.le⟩)
    have hneg : (e'.1.y - e'.2.y) *
        crossProd e.1 e.2 ⟨crossXf e'.1 e'.2 q.y, q.y⟩ < 0 := by
      rw [hid]; linarith
    have hCpos : 0 < crossProd e.1 e.2 ⟨crossXf e'.1 e'.2 q.y, q.y⟩ := by
      nlinarith [hneg, hlt']
    have := (lt_crossXf_iff_up e.1 e.2 ⟨crossXf e'.1 e'.2 q.y, q.y⟩ hlt).mpr hCpos
    simpa using this
  have hXX' : crossXf e.1 e.2 q.y < crossXf e'.1 e'.2 q.y := by
    have hid := cross_at_crossXf e'.1 e'.2 e.1 e.2 q.y (sub_ne_zero.mpr hlt.ne)
    have ht1 : (q.y - e.2.y) * crossProd e'.1 e'.2 e.1 < 0 :=
      mul_neg_of_neg_of_pos (by linarith [hup.2]) hcu
    have ht2 : (e.1.y - q.y) * crossProd e'.1 e'.2 e.2 ≤ 0 :=
      mul_nonpos_iff.mpr (Or.inr ⟨by linarith [hup.1], hcv.le⟩)
    have hneg : (e.1.y - e.2.y) *
        crossProd e'.1 e'.2 ⟨crossXf e.1 e.2 q.y, q.y⟩ < 0 := by
      rw [hid]; linarith
    have hCpos : 0 < crossProd e'.1 e'.2 ⟨crossXf e.1 e.2 q.y, q.y⟩ := by
      nlinarith [hneg, hlt]
    have := (lt_crossXf_iff_up e'.1 e'.2 ⟨crossXf e.1 e.2 q.y, q.y⟩ hlt').mpr hCpos
    simpa using this
  linarith

/-- Clockwise mirror of `upward_unique`: at most one edge descends past
the height of a point strictly right of every edge. -/
lemma downward_unique (l : List (Pt ℚ)) (hn : l.Nodup) (q : Pt ℚ)
    (hcw : ∀ e ∈ cyclicEdges l, ∀ p ∈ l, p ≠ e.1 → p ≠ e.2 → crossProd e.1 e.2 p < 0) :
    ∀ e ∈ cyclicEdges l, ∀ e' ∈ cyclicEdges l,
      (e.2.y ≤ q.y ∧ q.y < e.1.y) → (e'.2.y ≤ q.y ∧ q.y < e'.1.y) → e = e' := by
  intro e he e' he' hdn hdn'
  by_contra hne
  have hsndN : ((cyclicEdges l).map Prod.snd).Nodup := by
    rw [cyclicEdges_map_snd]; exact hn
  have hfstN : ((cyclicEdges l).map Prod.fst).Nodup := by
    rw [cyclicEdges_map_fst]; exact ((prevList_perm l).nodup_iff).mpr hn
  have hsnd : e.2 ≠ e'.2 := fun h => hne (List.inj_on_of_nodup_map hsndN he he' h)
  have hfst : e.1 ≠ e'.1 := fun h => hne (List.inj_on_of_nodup_map hfstN he he' h)
  have h12 : e.1 ≠ e'.2 := by
    intro h
    have h1 := hdn'.1
    rw [← h] at h1
    linarith [hdn.2]
  have h21 : e.2 ≠ e'.1 := by
    intro h
    have h1 := hdn.1
    rw [h] at h1
    linarith [hdn'.2]
  obtain ⟨he1m, he2m⟩ := mem_of_mem_cyclicEdges he
  obtain ⟨he1m', he2m'⟩ := mem_of_mem_cyclicEdges he'
  have hcu' : crossProd e.1 e.2 e'.1 < 0 := hcw e he e'.1 he1m' (Ne.symm hfst) (Ne.symm h21)
  have hcv' : crossProd e.1 e.2 e'.2 < 0 := hcw e he e'.2 he2m' (Ne.symm h12) (Ne.symm hsnd)
  have hcu : crossProd e'.1 e'.2 e.1 < 0 := hcw e' he' e.1 he1m hfst h12
  have hcv : crossProd e'.1 e'.2 e.2 < 0 := hcw e' he' e.2 he2m h21 hsnd
  have hlt : e.2.y < e.1.y := lt_of_le_of_lt hdn.1 hdn.2
  have hlt' : e'.2.y < e'.1.y := lt_of_le_of_lt hdn'.1 hdn'.2
  have hX'X : crossXf e'.1 e'.2 q.y < crossXf e.1 e.2 q.y := by
    have hid := cross_at_crossXf e.1 e.2 e'.1 e'.2 q.y (sub_ne_zero.mpr hlt'.ne')
    have ht1 : (q.y - e'.2.y) * crossProd e.1 e.2 e'.1 ≤ 0 :=
      mul_nonpos_iff.mpr (Or.inl ⟨by linarith [hdn'.1], hcu'.le⟩)
    have ht2 : (e'.1.y - q.y) * crossProd e.1 e.2 e'.2 < 0 :=
      mul_neg_of_pos_of_neg (by linarith [hdn'.2]) hcv'
    have hneg : (e'.1.y - e'.2.y) *
        crossProd e.1 e.2 ⟨crossXf e'.1 e'.2 q.y, q.y⟩ < 0 := by
      rw [hid]; linarith
    have hCneg : crossProd e.1 e.2 ⟨crossXf e'.1 e'.2 q.y, q.y⟩ < 0 := by
      nlinarith [hneg, hlt']
    have := (lt_crossXf_iff_down e.1 e.2 ⟨crossXf e'.1 e'.2 q.y, q.y⟩ hlt).mpr hCneg
    simpa using this
  have hXX' : crossXf e.1 e.2 q.y < crossXf e'.1 e'.2 q.y := by
    have hid := cross_at_crossXf e'.1 e'.2 e.1 e.2 q.y (sub_ne_zero.mpr hlt.ne')
    have ht1 : (q.y - e.2.y) * crossProd e'.1 e'.2 e.1 ≤ 0 :=
      mul_nonpos_iff.mpr (Or.inl ⟨by linarith [hdn.1], hcu.le⟩)
    have ht2 : (e.1.y - q.y) * crossProd e'.1 e'.2 e.2 < 0 :=
      mul_neg_of_pos_of_neg (by linarith [hdn.2]) hcv
    have hneg : (e.1.y - e.2.y) *
        crossProd e'.1 e'.2 ⟨crossXf e.1 e.2 q.y, q.y⟩ < 0 := by
      rw [hid]; linarith
    have hCneg : crossProd e'.1 e'.2 ⟨crossXf e.1 e.2 q.y, q.y⟩ < 0 := by
      nlinarith [hneg, hlt]
    have := (lt_crossXf_iff_down e'.1 e'.2 ⟨crossXf e.1 e.2 q.y, q.y⟩ hlt').mpr hCneg
    simpa using this
  linarith

/-- If no cyclic edge crosses, ray casting returns `false`. -/
lemma pip_false_of_no_crossing {α : Type} [LinearOrderedField α] (q : Pt α)
    (l : List (Pt α)) (h : ∀ e ∈ cyclicEdges l, edgeCrossing q e = false) :
    pointInPolygon q l = false := by
  rw [pointInPolygon_eq_parity]
  have h0 : (cyclicEdges l).countP (edgeCrossing q) = 0 :=
    List.countP_eq_zero.mpr (by intro e he; rw [h e he]; simp)
  rw [h0]
  norm_num

/-- At a point strictly left of every edge of a ring, exactly the edges
ascending past its height cross. -/
lemma edgeCrossing_eq_up (l : List (Pt ℚ)) (q : Pt ℚ)
    (hq : ∀ e ∈ cyclicEdges l, 0 < crossProd e.1 e.2 q) :
    ∀ e ∈ cyclicEdges l,
      edgeCrossing q e = (decide (e.1.y ≤ q.y) && decide (q.y < e.2.y)) := by
  intro e he
  rcases Bool.eq_false_or_eq_true (straddleB q e) with hstr | hstr
  · rcases straddle_cases q e hstr with hdown | hup
    · have hlt : e.2.y < e.1.y := lt_of_le_of_lt hdown.1 hdown.2
      have hno : ¬(q.x < crossXf e.1 e.2 q.y) := by
        rw [lt_crossXf_iff_down e.1 e.2 q hlt]
        exact not_lt.mpr (hq e he).le
      rw [edgeCrossing, hstr, Bool.true_and, decide_eq_false hno,
        decide_eq_false (not_lt.mpr hdown.1), Bool.and_false]
    · have hlt : e.1.y < e.2.y := lt_of_le_of_lt hup.1 hup.2
      have hyes : q.x < crossXf e.1 e.2 q.y :=
        (lt_crossXf_iff_up e.1 e.2 q hlt).mpr (hq e he)
      rw [edgeCrossing, hstr, Bool.true_and, decide_eq_true hyes,
        decide_eq_true hup.1, decide_eq_true hup.2, Bool.and_self]
  · rw [edgeCrossing, hstr, Bool.false_and]
    rcases Bool.eq_false_or_eq_true (decide (e.1.y ≤ q.y)) with h1 | h1
    · rcases Bool.eq_false_or_eq_true (decide (q.y < e.2.y)) with h2 | h2
      · exfalso
        have hh1 : e.1.y ≤ q.y := of_decide_eq_true h1
        have hh2 : q.y < e.2.y := of_decide_eq_true h2
        have hs : straddleB q e = true := by
          rw [straddleB, decide_eq_true hh2, decide_eq_false (not_lt.mpr hh1)]
          rfl
        rw [hs] at hstr
        simp at hstr
      · rw [h2, Bool.and_false]
    · rw [h1, Bool.false_and]

/-- At a point strictly right of every edge of a ring, exactly the
edges descending past its height cross. -/
lemma edgeCrossing_eq_down (l : List (Pt ℚ)) (q : Pt ℚ)
    (hq : ∀ e ∈ cyclicEdges l, crossProd e.1 e.2 q < 0) :
    ∀ e ∈ cyclicEdges l,
      edgeCrossing q e = (decide (e.2.y ≤ q.y) && decide (q.y < e.1.y)) := by
  intro e he
  rcases Bool.eq_false_or_eq_true (straddleB q e) with hstr | hstr
  · rcases straddle_cases q e hstr with hdown | hup
    · have hlt : e.2.y < e.1.y := lt_of_le_of_lt hdown.1 hdown.2
      have hyes : q.x < crossXf e.1 e.2 q.y :=
        (lt_crossXf_iff_down e.1 e.2 q hlt).mpr (hq e he)
      rw [edgeCrossing, hstr, Bool.true_and, decide_eq_true hyes,
        decide_eq_true hdown.1, decide_eq_true hdown.2, Bool.and_self]
    · have hlt : e.1.y < e.2.y := lt_of_le_of_lt hup.1 hup.2
      have hno : ¬(q.x < crossXf e.1 e.2 q.y) := by
        rw [lt_crossXf_iff_up e.1 e.2 q hlt]
        exact not_lt.mpr (hq e he).le
      rw [edgeCrossing, hstr, Bool.true_and, decide_eq_false hno,
        decide_eq_false (not_lt.mpr hup.1), Bool.and_false]
  · rw [edgeCrossing, hstr, Bool.false_and]
    rcases Bool.eq_false_or_eq_true (decide (e.2.y ≤ q.y)) with h1 | h1
    · rcases Bool.eq_false_or_eq_true (decide (q.y < e.1.y)) with h2 | h2
      · exfalso
        have hh1 : e.2.y ≤ q.y := of_decide_eq_true h1
        have hh2 : q.y < e.1.y := of_decide_eq_true h2
        have hs : straddleB q e = true := by
          rw [straddleB, decide_eq_false (not_lt.mpr hh1), decide_eq_true hh2]
          rfl
        rw [hs] at hstr
        simp at hstr
      · rw [h2, Bool.and_false]
    · rw [h1, Bool.false_and]

/-- The ray cast at the centroid of a counter-clockwise strictly convex
ring reports inside. -/
lemma pip_centroid_of_ccw (l : List (Pt ℚ)) (hn : l.Nodup) (h3 : 3 ≤ l.length)
    (hccw : ∀ e ∈ cyclicEdges l, ∀ p ∈ l, p ≠ e.1 → p ≠ e.2 → 0 < crossProd e.1 e.2 p) :
    pointInPolygon (centroid l) l = true := by
  have hl : l ≠ [] := by intro h; rw [h] at h3; simp at h3
  have hq := centroid_left_of_ccw l hn h3 hccw
  have hchar := edgeCrossing_eq_up l (centroid l) hq
  have hcnt : (cyclicEdges l).countP (edgeCrossing (centroid l)) =
      (cyclicEdges l).countP
        (fun e => decide (e.1.y ≤ (centroid l).y) && decide ((centroid l).y < e.2.y)) :=
    List.countP_congr (fun e he => by rw [hchar e he])
  obtain ⟨hexT, hexF⟩ := centroid_y_strict l hl
    (exists_y_ne_of_strict l hn h3 (Or.inl hccw))
  obtain ⟨p1, hp1, hp1y⟩ := hexT
  obtain ⟨p2, hp2, hp2y⟩ := hexF
  obtain ⟨e0, he0, hf1, hf2⟩ := exists_rise (fun p => decide (p.y > (centroid l).y)) l
    ⟨p1, hp1, decide_eq_true hp1y⟩ ⟨p2, hp2, decide_eq_false hp2y⟩
  have he0up : e0.1.y ≤ (centroid l).y ∧ (centroid l).y < e0.2.y :=
    ⟨not_lt.mp (of_decide_eq_false hf1), of_decide_eq_true hf2⟩
  have hup0 : (decide (e0.1.y ≤ (centroid l).y) &&
      decide ((centroid l).y < e0.2.y)) = true := by
    rw [decide_eq_true he0up.1, decide_eq_true he0up.2, Bool.and_self]
  have hpos : 0 < (cyclicEdges l).countP
      (fun e => decide (e.1.y ≤ (centroid l).y) && decide ((centroid l).y < e.2.y)) :=
    List.countP_pos_iff.mpr ⟨e0, he0, hup0⟩
  have hnodupE : (cyclicEdges l).Nodup :=
    List.Nodup.of_map Prod.snd (by rw [cyclicEdges_map_snd]; exact hn)
  have hle : (cyclicEdges l).countP
      (fun e => decide (e.1.y ≤ (centroid l).y) && decide ((centroid l).y < e.2.y)) ≤ 1 := by
    apply countP_le_one_of_unique _ _ hnodupE
    intro e he hPe e' he' hPe'
    simp only [Bool.and_eq_true, decide_eq_true_eq] at hPe hPe'
    exact upward_unique l hn (centroid l) hccw e he e' he' hPe hPe'
  have h1 : (cyclicEdges l).countP
      (fun e => decide (e.1.y ≤ (centroid l).y) && decide ((centroid l).y < e.2.y)) = 1 :=
    le_antisymm hle hpos
  rw [pointInPolygon_eq_parity, hcnt, h1]
  norm_num

/-- The ray cast at the centroid of a clockwise strictly convex ring
reports inside. -/
lemma pip_centroid_of_cw (l : List (Pt ℚ)) (hn : l.Nodup) (h3 : 3 ≤ l.length)
    (hcw : ∀ e ∈ cyclicEdges l, ∀ p ∈ l, p ≠ e.1 → p ≠ e.2 → crossProd e.1 e.2 p < 0) :
    pointInPolygon (centroid l) l = true := by
  have hl : l ≠ [] := by intro h; rw [h] at h3; simp at h3
  have hq := centroid_right_of_cw l hn h3 hcw
  have hchar := edgeCrossing_eq_down l (centroid l) hq
  have hcnt : (cyclicEdges l).countP (edgeCrossing (centroid l)) =
      (cyclicEdges l).countP
        (fun e => decide (e.2.y ≤ (centroid l).y) && decide ((centroid l).y < e.1.y)) :=
    List.countP_congr (fun e he => by rw [hchar e he])
  obtain ⟨hexT, hexF⟩ := centroid_y_strict l hl
    (exists_y_ne_of_strict l hn h3 (Or.inr hcw))
  obtain ⟨p1, hp1, hp1y⟩ := hexT
  obtain ⟨p2, hp2, hp2y⟩ := hexF
  obtain ⟨e0, he0, hf1, hf2⟩ :=
    exists_rise (fun p => !decide (p.y > (centroid l).y)) l
      ⟨p2, hp2, by simp [hp2y]⟩
      ⟨p1, hp1, by simp [hp1y]⟩
  have hd1 : decide (e0.1.y > (centroid l).y) = true := by
    rcases Bool.eq_false_or_eq_true (decide (e0.1.y > (centroid l).y)) with h | h
    · exact h
    · rw [h] at hf1; simp at hf1
  have hd2 : decide (e0.2.y > (centroid l).y) = false := by
    rcases Bool.eq_false_or_eq_true (decide (e0.2.y > (centroid l).y)) with h | h
    · rw [h] at hf2; simp at hf2
    · exact h
  have he0down : e0.2.y ≤ (centroid l).y ∧ (centroid l).y < e0.1.y :=
    ⟨not_lt.mp (of_decide_eq_false hd2), of_decide_eq_true hd1⟩
  have hdn0 : (decide (e0.2.y ≤ (centroid l).y) &&
      decide ((centroid l).y < e0.1.y)) = true := by
    rw [decide_eq_true he0down.1, decide_eq_true he0down.2, Bool.and_self]
  have hpos : 0 < (cyclicEdges l).countP
      (fun e => decide (e.2.y ≤ (centroid l).y) && decide ((centroid l).y < e.1.y)) :=
    List.countP_pos_iff.mpr ⟨e0, he0, hdn0⟩
  have hnodupE : (cyclicEdges l).Nodup :=
    List.Nodup.of_map Prod.snd (by rw [cyclicEdges_map_snd]; exact hn)
  have hle : (cyclicEdges l).countP
      (fun e => decide (e.2.y ≤ (centroid l).y) && decide ((centroid l).y < e.1.y)) ≤ 1 := by
    apply countP_le_one_of_unique _ _ hnodupE
    intro e he hPe e' he' hPe'
    simp only [Bool.and_eq_true, decide_eq_true_eq] at hPe hPe'
    exact downward_unique l hn (centroid l) hcw e he e' he' hPe hPe'
  have h1 : (cyclicEdges l).countP
      (fun e => decide (e.2.y ≤ (centroid l).y) && decide ((centroid l).y < e.1.y)) = 1 :=
    le_antisymm hle hpos
  rw [pointInPolygon_eq_parity, hcnt, h1]
  norm_num

end ConvexGeometry

/-- C7: `pointInPolygon` returns `false` for every query point with an
x or y coordinate strictly outside the polygon's axis-aligned bounding
box, and returns `true` at the vertex centroid of every strictly convex
polygon (either orientation). -/
theorem pointInPolygon_bbox_and_convex_centroid :
    (∀ (l : List (Pt ℚ)) (q : Pt ℚ),
      ((∀ p ∈ l, q.x < p.x) ∨ (∀ p ∈ l, p.x < q.x) ∨
       (∀ p ∈ l, q.y < p.y) ∨ (∀ p ∈ l, p.y < q.y)) →
      pointInPolygon q l = false) ∧
    (∀ l : List (Pt ℚ), IsConvexRing l → pointInPolygon (centroid l) l = true) := by
  constructor
  · intro l q hcase
    rcases hcase with hxlt | hxgt | hylt | hygt
    · have hagree : ∀ e ∈ cyclicEdges l, edgeCrossing q e = straddleB q e := by
        intro e he
        rcases Bool.eq_false_or_eq_true (straddleB q e) with hstr | hstr
        · obtain ⟨he1, he2⟩ := mem_of_mem_cyclicEdges he
          have hcross : q.x < crossXf e.1 e.2 q.y :=
            lt_crossXf_of_lt e.1 e.2 q.y q.x (straddle_cases q e hstr)
              (hxlt e.1 he1) (hxlt e.2 he2)
          rw [edgeCrossing, hstr, Bool.true_and, decide_eq_true hcross]
        · rw [edgeCrossing, hstr, Bool.false_and]
      have hc1 : (cyclicEdges l).countP (edgeCrossing q) =
          (cyclicEdges l).countP (straddleB q) :=
        List.countP_congr (fun e he => by rw [hagree e he])
      have heven : Even ((cyclicEdges l).countP
          (fun e => decide (e.1.y > q.y) != decide (e.2.y > q.y))) :=
        countP_diff_cyclic_even' (fun p => decide (p.y > q.y))
          (fun e => decide (e.1.y > q.y) != decide (e.2.y > q.y)) (fun e => rfl) l
      have hc2 : (cyclicEdges l).countP (straddleB q) =
          (cyclicEdges l).countP
            (fun e => decide (e.1.y > q.y) != decide (e.2.y > q.y)) :=
        List.countP_congr (fun e he => by
          rw [straddleB]
          cases hd1 : decide (e.1.y > q.y) <;> cases hd2 : decide (e.2.y > q.y) <;>
            simp [hd1, hd2])
      rw [pointInPolygon_eq_parity, hc1, hc2]
      obtain ⟨k, hk⟩ := heven
      exact decide_eq_false (by omega)
    · apply pip_false_of_no_crossing
      intro e he
      rcases Bool.eq_false_or_eq_true (straddleB q e) with hstr | hstr
      · obtain ⟨he1, he2⟩ := mem_of_mem_cyclicEdges he
        have hcross : crossXf e.1 e.2 q.y < q.x :=
          crossXf_lt_of_lt e.1 e.2 q.y q.x (straddle_cases q e hstr)
            (hxgt e.1 he1) (hxgt e.2 he2)
        rw [edgeCrossing, hstr, Bool.true_and,
          decide_eq_false (not_lt.mpr hcross.le)]
      · rw [edgeCrossing, hstr, Bool.false_and]
    · apply pip_false_of_no_crossing
      intro e he
      obtain ⟨he1, he2⟩ := mem_of_mem_cyclicEdges he
      rw [edgeCrossing, straddleB, decide_eq_true (hylt e.2 he2),
        decide_eq_true (hylt e.1 he1)]
      rfl
    · apply pip_false_of_no_crossing
      intro e he
      obtain ⟨he1, he2⟩ := mem_of_mem_cyclicEdges he
      rw [edgeCrossing, straddleB,
        decide_eq_false (not_lt.mpr (hygt e.2 he2).le),
        decide_eq_false (not_lt.mpr (hygt e.1 he1).le)]
      rfl
  · intro l hconv
    obtain ⟨hn, h3, hside⟩ := hconv
    rcases hside with hccw | hcw
    · exact pip_centroid_of_ccw l hn h3 hccw
    · exact pip_centroid_of_cw l hn h3 hcw

/-- Witness for C7: a point strictly left of a triangle's bounding box,
and the centroid of that (strictly convex) triangle. -/
theorem pointInPolygon_bbox_witness :
    (∀ p ∈ ([⟨0, 0⟩, ⟨4, 0⟩, ⟨0, 4⟩] : List (Pt ℚ)), (⟨-1, 1⟩ : Pt ℚ).x < p.x) ∧
    pointInPolygon (⟨-1, 1⟩ : Pt ℚ) ([⟨0, 0⟩, ⟨4, 0⟩, ⟨0, 4⟩] : List (Pt ℚ)) = false ∧
    IsConvexRing ([⟨0, 0⟩, ⟨4, 0⟩, ⟨0, 4⟩] : List (Pt ℚ)) ∧
    pointInPolygon (centroid ([⟨0, 0⟩, ⟨4, 0⟩, ⟨0, 4⟩] : List (Pt ℚ)))
      ([⟨0, 0⟩, ⟨4, 0⟩, ⟨0, 4⟩] : List (Pt ℚ)) = true :=
  ⟨by decide,
   pointInPolygon_bbox_and_convex_centroid.1 _ _ (Or.inl (by decide)),
   by norm_num [IsConvexRing, cyclicEdges, prevList, consecEdges, crossProd],
   pointInPolygon_bbox_and_convex_centroid.2 _
     (by norm_num [IsConvexRing, cyclicEdges, prevList, consecEdges, crossProd])⟩

end WmsCrop
